import Mathlib

/-!
Runtime support of the tuple language: `equal`, `print_simple`, `print`

A shallow embedding of `src/with-regs/main.c`.

* A machine word (`int`) is a `Nat` holding its 32-bit pattern; `toInt32` gives
  the value the C code sees when it computes with the word as a signed `int`.
* The heap maps byte addresses to words where memory is mapped.  Reading an
  address that is not mapped is C undefined behaviour and is reported as
  `Outcome.undefined`, so a run that ends in `Outcome.ok` has only read mapped
  addresses.
* `equal` and `print_simple` are recursive over the heap; the recursion depth
  is bounded by a fuel argument, and a call that would need more depth ends in
  `Outcome.outOfFuel`.
-/

namespace Design3

/-! ## Words, outcomes and the heap -/

/-- Result of running a piece of C code: a value, undefined behaviour (a read
outside the mapped heap, or signed overflow of `count + 1`), or recursion
deeper than the fuel allows. -/
inductive Outcome (α : Type) where
  | ok : α → Outcome α
  | undefined : Outcome α
  | outOfFuel : Outcome α
  deriving DecidableEq

/-- The constant `const int TRUE = 0xFFFFFFFF;`. -/
def TRUE : Nat := 0xFFFFFFFF

/-- The constant `const int FALSE = 0x7FFFFFFF;`. -/
def FALSE : Nat := 0x7FFFFFFF

/-- The value of a 32-bit pattern read as a signed `int` (two's complement). -/
def toInt32 (w : Nat) : Int :=
  if w % 2 ^ 32 < 2 ^ 31 then ((w % 2 ^ 32 : Nat) : Int) else ((w % 2 ^ 32 : Nat) : Int) - 2 ^ 32

/-- Largest `int`. -/
def INT_MAX : Int := 2 ^ 31 - 1

/-- The heap: byte address to the word stored there, `none` where nothing is
mapped. -/
abbrev Heap := Nat → Option Nat

/-- The read `*p` for an `int* p`: pointers are 32 bits wide (the code casts `int` to
`int*`), so nothing is readable at or above `2 ^ 32`. -/
def load (h : Heap) (p : Nat) : Option Nat :=
  if p < 2 ^ 32 then h p else none

/-! ## `equal` (main.c lines 13-31) -/

/-- The loop `for(int i = 1; i < count1 + 1; i += 1)` of `equal`, with `n`
iterations still to run and `i` the current index; `*(val1p + i)` is the word
at byte address `val1p + 4 * i`.  `rec` is the recursive call of `equal`. -/
def equalLoop (rec : Nat → Nat → Outcome Nat) (h : Heap) (val1p val2p : Nat) :
    Nat → Nat → Outcome Nat
  | 0, _ => .ok TRUE
  | n + 1, i =>
    match load h (val1p + 4 * i), load h (val2p + 4 * i) with
    | some e1, some e2 =>
      match rec e1 e2 with
      | .ok elts_equal =>
        if elts_equal = FALSE then .ok FALSE
        else equalLoop rec h val1p val2p n (i + 1)
      | .undefined => .undefined
      | .outOfFuel => .outOfFuel
    | _, _ => .undefined

/-- Body of `equal`, with the recursive call abstracted as `rec`.  The loop
bound `count1 + 1` overflows for `count1 = INT_MAX`, which is undefined; for
any other count the loop runs `max 0 count1` times, from `i = 1`. -/
def equalBody (rec : Nat → Nat → Outcome Nat) (h : Heap) (val1 val2 : Nat) : Outcome Nat :=
  if val1 = val2 then .ok TRUE
  else if val1 &&& 0x00000007 = 1 ∧ val2 &&& 0x00000007 = 1 then
    let val1p := val1 &&& 0xFFFFFFFE
    let val2p := val2 &&& 0xFFFFFFFE
    match load h val1p, load h val2p with
    | some count1, some count2 =>
      if count1 ≠ count2 then .ok FALSE
      else if toInt32 count1 = INT_MAX then .undefined
      else equalLoop rec h val1p val2p (toInt32 count1).toNat 1
    | _, _ => .undefined
  else .ok FALSE

/-- The function `int equal(int val1, int val2)` run with recursion depth at most `fuel`. -/
def equal (h : Heap) : Nat → Nat → Nat → Outcome Nat
  | 0, val1, val2 => equalBody (fun _ _ => .outOfFuel) h val1 val2
  | fuel + 1, val1, val2 => equalBody (equal h fuel) h val1 val2

/-! ## `print_simple` and `print` (main.c lines 33-64) -/

/-- Text written by `printf("%d", k)`. -/
def fmt_d (k : Int) : String :=
  match k with
  | .ofNat m => String.mk (Nat.toDigits 10 m)
  | .negSucc m => "-" ++ String.mk (Nat.toDigits 10 (m + 1))

/-- Text written by `printf("%#010x", v)` for the 32-bit pattern `v`: the
digits in lower case, zero-padded to a field of ten characters that includes
the `0x` that `#` puts before a non-zero value. -/
def fmt_hash_010x (v : Nat) : String :=
  if v = 0 then "0000000000"
  else "0x" ++ String.mk (List.leftpad 8 '0' (Nat.toDigits 16 v))

/-- The loop `for(int i = 1; i < count + 1; i += 1)` of `print_simple`, with
`n` iterations still to run and `i` the current index; the value is the text
the remaining iterations print. -/
def printLoop (rec : Nat → Outcome String) (h : Heap) (valp : Nat) (count : Int) :
    Nat → Nat → Outcome String
  | 0, _ => .ok ""
  | n + 1, i =>
    match load h (valp + 4 * i) with
    | some e =>
      match rec e with
      | .ok s =>
        match printLoop rec h valp count n (i + 1) with
        | .ok rest => .ok (s ++ (if (i : Int) < count then "," else "") ++ rest)
        | .undefined => .undefined
        | .outOfFuel => .outOfFuel
      | .undefined => .undefined
      | .outOfFuel => .outOfFuel
    | none => .undefined

/-- The tuple branch of `print_simple` (lines 44-53): `(`, the elements of the
record separated by `,`, then `)`. -/
def printTuple (rec : Nat → Outcome String) (h : Heap) (val : Nat) : Outcome String :=
  let valp := val &&& 0xFFFFFFFE
  match load h valp with
  | some count =>
    if toInt32 count = INT_MAX then .undefined
    else
      match printLoop rec h valp (toInt32 count) (toInt32 count).toNat 1 with
      | .ok elts => .ok ("(" ++ elts ++ ")")
      | .undefined => .undefined
      | .outOfFuel => .outOfFuel
  | none => .undefined

/-- Body of `print_simple`, with the recursive call abstracted as `rec`; the
value is the text printed. -/
def printSimpleBody (rec : Nat → Outcome String) (h : Heap) (val : Nat) : Outcome String :=
  if (val &&& 0x00000001) ^^^ 0x00000001 ≠ 0 then
    .ok (fmt_d (toInt32 val >>> (1 : Nat)))
  else if val = 0xFFFFFFFF then
    .ok "true"
  else if val = 0x7FFFFFFF then
    .ok "false"
  else if val &&& 0x00000007 = 1 then
    printTuple rec h val
  else
    .ok ("Unknown value: " ++ fmt_hash_010x val)

/-- The function `void print_simple(int val)` run with recursion depth at most `fuel`. -/
def print_simple (h : Heap) : Nat → Nat → Outcome String
  | 0, val => printSimpleBody (fun _ => .outOfFuel) h val
  | fuel + 1, val => printSimpleBody (print_simple h fuel) h val

/-- The function `int print(int val)`: the text written and the word returned. -/
def print (h : Heap) (fuel val : Nat) : Outcome (String × Nat) :=
  match print_simple h fuel val with
  | .ok s => .ok (s ++ "\n", val)
  | .undefined => .undefined
  | .outOfFuel => .outOfFuel

/-! ## Heaps used in statements -/

/-- The heap holding the words `ws` consecutively from byte address `base`
(4 bytes per word) and nothing else. -/
def heapOfList (base : Nat) (ws : List Nat) : Heap := fun p =>
  if base ≤ p ∧ (p - base) % 4 = 0 then ws[(p - base) / 4]? else none

/-- The heap `h` with everything outside the addresses `ps` unmapped. -/
def onlyAt (h : Heap) (ps : List Nat) : Heap := fun p =>
  if p ∈ ps then h p else none

/-- The heap with nothing mapped. -/
def emptyHeap : Heap := fun _ => none

/-- Every chain of tuple references that starts at the word `w` ends after at
most `d` records (so no cycle can be reached from `w`), and the count word and
all element words of every record on the way are mapped. -/
def acyclicWithin (h : Heap) : Nat → Nat → Bool
  | 0, w => decide (w &&& 0x00000007 ≠ 1)
  | d + 1, w =>
    if w &&& 0x00000007 = 1 then
      match load h (w &&& 0xFFFFFFFE) with
      | some count =>
        (List.range (toInt32 count).toNat).all fun i =>
          match load h ((w &&& 0xFFFFFFFE) + 4 * (i + 1)) with
          | some e => acyclicWithin h d e
          | none => false
      | none => false
    else true

/-- The word encoding the integer `k`: `2 * k` as a 32-bit two's complement
pattern. -/
def encodeInt (k : Int) : Nat := ((2 * k) % 2 ^ 32).toNat


/-- The call `equal(a, b)` returns the word `r`: it does so once the fuel
covers its recursion depth. -/
def EqualReturns (h : Heap) (a b r : Nat) : Prop := ∃ fuel, equal h fuel a b = .ok r

/-- The two words are bit-identical, or both are tuple-tagged, their records
have the same count word `n`, and `equal` returns `TRUE` on each of the element
pairs `1..n` (the count read as a signed `int`). -/
def StructurallyEqual (h : Heap) (a b : Nat) : Prop :=
  a = b ∨
    (a &&& 0x00000007 = 1 ∧ b &&& 0x00000007 = 1 ∧
      ∃ n, load h (a &&& 0xFFFFFFFE) = some n ∧ load h (b &&& 0xFFFFFFFE) = some n ∧
        ∀ i : Nat, 1 ≤ i → (i : Int) ≤ toInt32 n →
          ∃ x y, load h ((a &&& 0xFFFFFFFE) + 4 * i) = some x ∧
            load h ((b &&& 0xFFFFFFFE) + 4 * i) = some y ∧ EqualReturns h x y TRUE)

/-- The call `print_simple(v)` prints the text `s`: it does so once the fuel
covers its recursion depth. -/
def PrintReturns (h : Heap) (v : Nat) (s : String) : Prop :=
  ∃ fuel, print_simple h fuel v = .ok s

/-- The five variants of a tagged word. -/
inductive Variant where
  | integer
  | boolTrue
  | boolFalse
  | tupleRef
  | unrecognized
  deriving DecidableEq

/-- The variant selected by the chain of tests of `print_simple`, in the order
the code makes them: integer test, `0xFFFFFFFF`, `0x7FFFFFFF`, tuple tag. -/
def classify (val : Nat) : Variant :=
  if (val &&& 0x00000001) ^^^ 0x00000001 ≠ 0 then .integer
  else if val = 0xFFFFFFFF then .boolTrue
  else if val = 0x7FFFFFFF then .boolFalse
  else if val &&& 0x00000007 = 1 then .tupleRef
  else .unrecognized

/-- The classifier of the specification, which tests the boolean sentinels
before the tag bits. -/
def classifySentinelsFirst (w : Nat) : Variant :=
  if w = 0xFFFFFFFF then .boolTrue
  else if w = 0x7FFFFFFF then .boolFalse
  else if w &&& 0x00000001 = 0 then .integer
  else if w &&& 0x00000007 = 1 then .tupleRef
  else .unrecognized

/-- What `print_simple` prints for a word of the given variant. -/
def printVariant (rec : Nat → Outcome String) (h : Heap) (val : Nat) : Variant → Outcome String
  | .integer => .ok (fmt_d (toInt32 val >>> (1 : Nat)))
  | .boolTrue => .ok "true"
  | .boolFalse => .ok "false"
  | .tupleRef => printTuple rec h val
  | .unrecognized => .ok ("Unknown value: " ++ fmt_hash_010x val)

/-- The number a list of decimal digit characters denotes. -/
def decimalValue (cs : List Char) : Nat :=
  cs.foldl (fun acc c => 10 * acc + (c.toNat - 48)) 0

/-- Reading a signed decimal text back: an optional leading `-`, then the
digits. -/
def readDecimal (s : String) : Int :=
  if s.data.head? = some '-' then -((decimalValue s.data.tail : Nat) : Int)
  else ((decimalValue s.data : Nat) : Int)

/-! ## `error` (main.c lines 66-92) -/

/-- How a call ends: by returning a value to its caller, or by `exit(status)`
after `stderr` has been written to the error stream. -/
inductive Flow (α : Type) where
  | returned : α → Flow α
  | exited : String → Int → Flow α
  deriving DecidableEq

/-- The function `void error(int i)`: the branch for `i` writes its message
with `fprintf(stderr, ...)`, then `exit(i)` ends the process. -/
def error (i : Int) : Flow Unit :=
  let stderr :=
    if i = 0 then "Error: comparison operator got non-number"
    else if i = 1 then "Error: arithmetic operator got non-number"
    else if i = 2 then "Error: if condition got non-boolean"
    else if i = 3 then "Error: Integer overflow"
    else if i = 4 then "Error: not a tuple"
    else if i = 5 then "Error: index too small"
    else if i = 6 then "Error: index too large"
    else "Error: Unknown error code: " ++ fmt_d i ++ "\n"
  .exited stderr i

/-! ## Reading hexadecimal text back -/

/-- The sixteen lower-case hexadecimal digits. -/
def lowerHexDigits : List Char := "0123456789abcdef".data

/-- The value of one lower-case hexadecimal digit. -/
def hexDigitValue (c : Char) : Nat :=
  if c.isDigit then c.toNat - 48 else c.toNat - 87

/-- The number a list of hexadecimal digit characters denotes. -/
def hexValue (cs : List Char) : Nat :=
  cs.foldl (fun acc c => 16 * acc + hexDigitValue c) 0

/-! ## Acyclic heaps by a rank -/

/-- The tuple reference graph over the record addresses `isRecord` is acyclic
and in bounds: the count word and the element words `1..count` of every record
are mapped, and an element that is a tuple reference refers to a record of
strictly smaller `rank`. -/
def RankedRecords (h : Heap) (isRecord : Nat → Prop) (rank : Nat → Nat) : Prop :=
  ∀ p, isRecord p →
    ∃ count, load h p = some count ∧
      ∀ i : Nat, 1 ≤ i → (i : Int) ≤ toInt32 count →
        ∃ e, load h (p + 4 * i) = some e ∧
          (e &&& 0x00000007 = 1 →
            isRecord (e &&& 0xFFFFFFFE) ∧ rank (e &&& 0xFFFFFFFE) < rank p)

/-- The word is not tuple-tagged, or it refers to one of the records. -/
def RefersToRecord (isRecord : Nat → Prop) (w : Nat) : Prop :=
  w &&& 0x00000007 = 1 → isRecord (w &&& 0xFFFFFFFE)

/-! ## Well-formed values, for the injectivity of printing -/

/-- As `acyclicWithin`, and in addition every word met on the way (the word
`w`, the counts, the elements) is a 32-bit pattern and every count is
non-negative as a signed `int`. -/
def wellFormedWithin (h : Heap) : Nat → Nat → Bool
  | 0, w => decide (w < 2 ^ 32) && decide (w &&& 0x00000007 ≠ 1)
  | d + 1, w =>
    decide (w < 2 ^ 32) &&
      (if w &&& 0x00000007 = 1 then
        match load h (w &&& 0xFFFFFFFE) with
        | some count =>
          decide (count < 2 ^ 31) &&
            (List.range (toInt32 count).toNat).all fun i =>
              match load h ((w &&& 0xFFFFFFFE) + 4 * (i + 1)) with
              | some e => wellFormedWithin h d e
              | none => false
        | none => false
      else true)

/-- What may follow the text of a value inside a printed tuple: nothing, a
comma or a closing parenthesis. -/
def Delimited (r : List Char) : Prop :=
  r = [] ∨ r.head? = some ',' ∨ r.head? = some ')'

/-- The variant of a word, read off the first character of its printed text. -/
def variantOfHead (c : Char) : Variant :=
  if c = 't' then .boolTrue
  else if c = 'f' then .boolFalse
  else if c = '(' then .tupleRef
  else if c = 'U' then .unrecognized
  else .integer

/-! ## Lemmas about `equal` -/

theorem TRUE_ne_FALSE : TRUE ≠ FALSE := by decide

theorem load_lt {h : Heap} {p w : Nat} (hl : load h p = some w) : p < 2 ^ 32 := by
  unfold load at hl
  split at hl
  · assumption
  · cases hl

/-- The element loop only ever answers `TRUE` or `FALSE`, whatever the
recursive calls answer. -/
theorem equalLoop_sentinel (rec : Nat → Nat → Outcome Nat) (h : Heap) (p1 p2 : Nat) :
    ∀ (n i r : Nat), equalLoop rec h p1 p2 n i = .ok r → r = TRUE ∨ r = FALSE := by
  intro n
  induction n with
  | zero =>
    intro i r hr
    simp only [equalLoop, Outcome.ok.injEq] at hr
    exact Or.inl hr.symm
  | succ n ih =>
    intro i r hr
    simp only [equalLoop] at hr
    split at hr
    · split at hr
      · split at hr
        · simp only [Outcome.ok.injEq] at hr
          exact Or.inr hr.symm
        · exact ih _ _ hr
      · cases hr
      · cases hr
    · cases hr

theorem equalBody_sentinel (rec : Nat → Nat → Outcome Nat) (h : Heap) (a b r : Nat)
    (hr : equalBody rec h a b = .ok r) : r = TRUE ∨ r = FALSE := by
  unfold equalBody at hr
  split at hr
  · simp only [Outcome.ok.injEq] at hr
    exact Or.inl hr.symm
  · split at hr
    · simp only at hr
      split at hr
      · split at hr
        · simp only [Outcome.ok.injEq] at hr
          exact Or.inr hr.symm
        · split at hr
          · cases hr
          · exact equalLoop_sentinel _ _ _ _ _ _ _ hr
      · cases hr
    · simp only [Outcome.ok.injEq] at hr
      exact Or.inr hr.symm

theorem equal_sentinel (h : Heap) (fuel a b r : Nat) (hr : equal h fuel a b = .ok r) :
    r = TRUE ∨ r = FALSE := by
  cases fuel with
  | zero => exact equalBody_sentinel _ h a b r hr
  | succ f => exact equalBody_sentinel _ h a b r hr

/-- What the loop does when every element pair it reaches is mapped and its
comparison returns. -/
theorem equalLoop_ok_of_all (rec : Nat → Nat → Outcome Nat) (h : Heap) (p1 p2 : Nat) :
    ∀ (n i : Nat),
      (∀ j, j < n → ∃ x y r, load h (p1 + 4 * (i + j)) = some x ∧
        load h (p2 + 4 * (i + j)) = some y ∧ rec x y = .ok r) →
      ∃ r, equalLoop rec h p1 p2 n i = .ok r := by
  intro n
  induction n with
  | zero => intro i _; exact ⟨TRUE, rfl⟩
  | succ n ih =>
    intro i hall
    obtain ⟨x, y, r, hx, hy, hr⟩ := hall 0 (Nat.succ_pos n)
    simp only [Nat.add_zero] at hx hy
    simp only [equalLoop, hx, hy, hr]
    by_cases hf : r = FALSE
    · exact ⟨FALSE, by simp [hf]⟩
    · simp only [hf, if_false]
      apply ih
      intro j hj
      have := hall (j + 1) (Nat.succ_lt_succ hj)
      simpa [Nat.add_assoc, Nat.add_comm 1 j] using this

/-- A loop that answers `TRUE` has read every pair and none compared `FALSE`. -/
theorem equalLoop_true_elim (rec : Nat → Nat → Outcome Nat) (h : Heap) (p1 p2 : Nat) :
    ∀ (n i : Nat), equalLoop rec h p1 p2 n i = .ok TRUE →
      ∀ j, j < n → ∃ x y r, load h (p1 + 4 * (i + j)) = some x ∧
        load h (p2 + 4 * (i + j)) = some y ∧ rec x y = .ok r ∧ r ≠ FALSE := by
  intro n
  induction n with
  | zero => intro i _ j hj; exact absurd hj (Nat.not_lt_zero j)
  | succ n ih =>
    intro i hr j hj
    simp only [equalLoop] at hr
    split at hr
    next e1 e2 h1 h2 =>
      split at hr
      next r hrec =>
        split at hr
        · simp only [Outcome.ok.injEq] at hr
          exact absurd hr.symm TRUE_ne_FALSE
        next hne =>
          cases j with
          | zero => exact ⟨e1, e2, r, by simpa using h1, by simpa using h2, hrec, hne⟩
          | succ j =>
            have := ih (i + 1) hr j (Nat.lt_of_succ_lt_succ hj)
            simpa [Nat.add_assoc, Nat.add_comm 1 j] using this
      · cases hr
      · cases hr
    · cases hr

/-- A loop whose pairs are all mapped and all compare `TRUE` answers `TRUE`. -/
theorem equalLoop_true_intro (rec : Nat → Nat → Outcome Nat) (h : Heap) (p1 p2 : Nat) :
    ∀ (n i : Nat),
      (∀ j, j < n → ∃ x y, load h (p1 + 4 * (i + j)) = some x ∧
        load h (p2 + 4 * (i + j)) = some y ∧ rec x y = .ok TRUE) →
      equalLoop rec h p1 p2 n i = .ok TRUE := by
  intro n
  induction n with
  | zero => intro i _; rfl
  | succ n ih =>
    intro i hall
    obtain ⟨x, y, hx, hy, hr⟩ := hall 0 (Nat.succ_pos n)
    simp only [Nat.add_zero] at hx hy
    simp only [equalLoop, hx, hy, hr, TRUE_ne_FALSE, if_false]
    apply ih
    intro j hj
    have := hall (j + 1) (Nat.succ_lt_succ hj)
    simpa [Nat.add_assoc, Nat.add_comm 1 j] using this

/-- The loop is monotone in the recursive call. -/
theorem equalLoop_mono (rec rec2 : Nat → Nat → Outcome Nat) (h : Heap) (p1 p2 : Nat)
    (hrec : ∀ x y r, rec x y = .ok r → rec2 x y = .ok r) :
    ∀ (n i r : Nat), equalLoop rec h p1 p2 n i = .ok r → equalLoop rec2 h p1 p2 n i = .ok r := by
  intro n
  induction n with
  | zero => intro i r hr; exact hr
  | succ n ih =>
    intro i r hr
    simp only [equalLoop] at hr ⊢
    split at hr
    next e1 e2 h1 h2 =>
      split at hr
      next r1 hr1 =>
        simp only [hrec _ _ _ hr1]
        split at hr
        next hf => simp only [hf, if_true]; exact hr
        next hf => simp only [hf, if_false]; exact ih _ _ hr
      · cases hr
      · cases hr
    · cases hr

theorem equalBody_mono (rec rec2 : Nat → Nat → Outcome Nat) (h : Heap)
    (hrec : ∀ x y r, rec x y = .ok r → rec2 x y = .ok r) (a b r : Nat)
    (hr : equalBody rec h a b = .ok r) : equalBody rec2 h a b = .ok r := by
  unfold equalBody at hr ⊢
  split at hr
  next hab => simp only [hab, if_true]; exact hr
  next hab =>
    simp only [hab, if_false]
    split at hr
    next ht =>
      simp only [ht, and_self, if_true]
      simp only at hr
      split at hr
      next c1 c2 h1 h2 =>
        split at hr
        next hc => rw [if_pos hc]; exact hr
        next hc =>
          rw [if_neg hc]
          split at hr
          · cases hr
          next hm =>
            rw [if_neg hm]
            exact equalLoop_mono rec rec2 h _ _ hrec _ _ _ hr
      · cases hr
    next ht => simp only [ht, if_false]; exact hr

theorem equal_succ (h : Heap) : ∀ (fuel a b r : Nat),
    equal h fuel a b = .ok r → equal h (fuel + 1) a b = .ok r := by
  intro fuel
  induction fuel with
  | zero =>
    intro a b r hr
    exact equalBody_mono _ _ h (fun x y r hxy => by cases hxy) a b r hr
  | succ f ih =>
    intro a b r hr
    exact equalBody_mono _ _ h (fun x y r hxy => ih x y r hxy) a b r hr

/-- More fuel never changes a result already obtained. -/
theorem equal_fuel_mono (h : Heap) (fuel fuel2 a b r : Nat) (hle : fuel ≤ fuel2)
    (hr : equal h fuel a b = .ok r) : equal h fuel2 a b = .ok r := by
  induction hle with
  | refl => exact hr
  | step _ ih => exact equal_succ h _ a b r ih

theorem acyclicWithin_zero_elim {h : Heap} {w : Nat} (hw : acyclicWithin h 0 w = true) :
    w &&& 0x00000007 ≠ 1 := by
  simpa [acyclicWithin] using hw

theorem acyclicWithin_succ_elim {h : Heap} {d w : Nat} (hw : acyclicWithin h (d + 1) w = true)
    (ht : w &&& 0x00000007 = 1) :
    ∃ c, load h (w &&& 0xFFFFFFFE) = some c ∧
      ∀ i, i < (toInt32 c).toNat →
        ∃ e, load h ((w &&& 0xFFFFFFFE) + 4 * (i + 1)) = some e ∧ acyclicWithin h d e = true := by
  simp only [acyclicWithin, ht, if_true] at hw
  split at hw
  next c hc =>
    refine ⟨c, hc, ?_⟩
    intro i hi
    rw [List.all_eq_true] at hw
    have hi2 := hw i (List.mem_range.2 hi)
    split at hi2
    next e he => exact ⟨e, he, hi2⟩
    · cases hi2
  · cases hw

/-- A record whose elements are all mapped has fewer than `INT_MAX` of them:
the address space is too small for more. -/
theorem count_ne_INT_MAX {h : Heap} {p c : Nat}
    (hall : ∀ i, i < (toInt32 c).toNat → ∃ e, load h (p + 4 * (i + 1)) = some e) :
    toInt32 c ≠ INT_MAX := by
  intro hc
  have hn : (toInt32 c).toNat = 2147483647 := by rw [hc]; decide
  obtain ⟨e, he⟩ := hall 2147483646 (by omega)
  have := load_lt he
  omega

theorem equalBody_same (rec : Nat → Nat → Outcome Nat) (h : Heap) (v : Nat) :
    equalBody rec h v v = .ok TRUE := by
  simp [equalBody]

theorem equalBody_not_tuples (rec : Nat → Nat → Outcome Nat) (h : Heap) (a b : Nat)
    (hne : a ≠ b) (ht : ¬ (a &&& 0x00000007 = 1 ∧ b &&& 0x00000007 = 1)) :
    equalBody rec h a b = .ok FALSE := by
  unfold equalBody
  rw [if_neg hne, if_neg ht]

theorem equalBody_tuples (rec : Nat → Nat → Outcome Nat) (h : Heap) (a b c1 c2 : Nat)
    (hne : a ≠ b) (ta : a &&& 0x00000007 = 1) (tb : b &&& 0x00000007 = 1)
    (h1 : load h (a &&& 0xFFFFFFFE) = some c1) (h2 : load h (b &&& 0xFFFFFFFE) = some c2) :
    equalBody rec h a b =
      if c1 ≠ c2 then .ok FALSE
      else if toInt32 c1 = INT_MAX then .undefined
      else equalLoop rec h (a &&& 0xFFFFFFFE) (b &&& 0xFFFFFFFE) (toInt32 c1).toNat 1 := by
  unfold equalBody
  rw [if_neg hne, if_pos ⟨ta, tb⟩]
  simp only [h1, h2]

theorem equal_unfold (h : Heap) (fuel a b : Nat) :
    equal h fuel a b =
      equalBody (match fuel with | 0 => fun _ _ => .outOfFuel | f + 1 => equal h f) h a b := by
  cases fuel <;> rfl

/-- With both words acyclic within depth `d`, fuel `d` is enough for `equal`
to return. -/
theorem equal_terminates (h : Heap) : ∀ (d a b : Nat),
    acyclicWithin h d a = true → acyclicWithin h d b = true → ∃ r, equal h d a b = .ok r := by
  intro d
  induction d with
  | zero =>
    intro a b ha _
    by_cases hab : a = b
    · subst hab; exact ⟨TRUE, equalBody_same _ h a⟩
    · exact ⟨FALSE, equalBody_not_tuples _ h a b hab
        (fun ht => acyclicWithin_zero_elim ha ht.1)⟩
  | succ d ih =>
    intro a b ha hb
    by_cases hab : a = b
    · subst hab; exact ⟨TRUE, equalBody_same _ h a⟩
    · by_cases ht : a &&& 0x00000007 = 1 ∧ b &&& 0x00000007 = 1
      · obtain ⟨c1, h1, e1⟩ := acyclicWithin_succ_elim ha ht.1
        obtain ⟨c2, h2, e2⟩ := acyclicWithin_succ_elim hb ht.2
        show ∃ r, equalBody (equal h d) h a b = .ok r
        rw [equalBody_tuples _ h a b c1 c2 hab ht.1 ht.2 h1 h2]
        by_cases hc : c1 = c2
        · subst hc
          have hm : toInt32 c1 ≠ INT_MAX :=
            count_ne_INT_MAX (fun i hi => (e1 i hi).imp fun _ he => he.1)
          rw [if_neg (not_not.2 rfl), if_neg hm]
          apply equalLoop_ok_of_all
          intro j hj
          obtain ⟨x, hx, ax⟩ := e1 j hj
          obtain ⟨y, hy, ay⟩ := e2 j hj
          obtain ⟨r, hr⟩ := ih x y ax ay
          refine ⟨x, y, r, ?_, ?_, hr⟩
          · rw [Nat.add_comm 1 j]; exact hx
          · rw [Nat.add_comm 1 j]; exact hy
        · exact ⟨FALSE, by rw [if_pos hc]⟩
      · exact ⟨FALSE, equalBody_not_tuples _ h a b hab ht⟩

theorem acyclicWithin_succ (h : Heap) : ∀ (d w : Nat),
    acyclicWithin h d w = true → acyclicWithin h (d + 1) w = true := by
  intro d
  induction d with
  | zero =>
    intro w hw
    have := acyclicWithin_zero_elim hw
    simp [acyclicWithin, this]
  | succ d ih =>
    intro w hw
    by_cases ht : w &&& 0x00000007 = 1
    · obtain ⟨c, hc, he⟩ := acyclicWithin_succ_elim hw ht
      rw [acyclicWithin]
      simp only [ht, if_true, hc, List.all_eq_true, List.mem_range]
      intro i hi
      obtain ⟨e, hle, hae⟩ := he i hi
      simp only [hle]
      exact ih e hae
    · rw [acyclicWithin]
      simp [ht]

theorem acyclicWithin_mono (h : Heap) (d d2 w : Nat) (hle : d ≤ d2)
    (hw : acyclicWithin h d w = true) : acyclicWithin h d2 w = true := by
  induction hle with
  | refl => exact hw
  | step _ ih => exact acyclicWithin_succ h _ w ih

/-- The element loop does not depend on the order of its two records. -/
theorem equalLoop_comm (rec : Nat → Nat → Outcome Nat) (h : Heap) (p1 p2 : Nat)
    (hrec : ∀ x y, rec x y = rec y x) :
    ∀ (n i : Nat), equalLoop rec h p1 p2 n i = equalLoop rec h p2 p1 n i := by
  intro n
  induction n with
  | zero => intro i; rfl
  | succ n ih =>
    intro i
    simp only [equalLoop]
    cases h1 : load h (p1 + 4 * i) <;> cases h2 : load h (p2 + 4 * i) <;> simp only []
    rw [hrec, ih]

theorem equalBody_comm (rec : Nat → Nat → Outcome Nat) (h : Heap)
    (hrec : ∀ x y, rec x y = rec y x) (a b : Nat) :
    equalBody rec h a b = equalBody rec h b a := by
  by_cases hab : a = b
  · subst hab; rfl
  · have hba : b ≠ a := fun e => hab e.symm
    by_cases ht : a &&& 0x00000007 = 1 ∧ b &&& 0x00000007 = 1
    · cases h1 : load h (a &&& 0xFFFFFFFE) with
      | none =>
        unfold equalBody
        rw [if_neg hab, if_pos ht, if_neg hba, if_pos ht.symm]
        simp only [h1]
        cases load h (b &&& 0xFFFFFFFE) <;> rfl
      | some c1 =>
        cases h2 : load h (b &&& 0xFFFFFFFE) with
        | none =>
          unfold equalBody
          rw [if_neg hab, if_pos ht, if_neg hba, if_pos ht.symm]
          simp only [h1, h2]
        | some c2 =>
          rw [equalBody_tuples _ h a b c1 c2 hab ht.1 ht.2 h1 h2,
            equalBody_tuples _ h b a c2 c1 hba ht.2 ht.1 h2 h1]
          by_cases hc : c1 = c2
          · subst hc
            rw [equalLoop_comm rec h _ _ hrec]
          · have hc2 : c2 ≠ c1 := fun e => hc e.symm
            rw [if_pos hc, if_pos hc2]
    · rw [equalBody_not_tuples _ h a b hab ht,
        equalBody_not_tuples _ h b a hba (fun t => ht t.symm)]

/-- Swapping the arguments of `equal` never changes its outcome. -/
theorem equal_comm (h : Heap) : ∀ (fuel a b : Nat), equal h fuel a b = equal h fuel b a := by
  intro fuel
  induction fuel with
  | zero => intro a b; exact equalBody_comm (fun _ _ => Outcome.outOfFuel) h (fun _ _ => rfl) a b
  | succ f ih => intro a b; exact equalBody_comm _ h (fun x y => ih x y) a b

theorem equalBody_true_elim (rec : Nat → Nat → Outcome Nat) (h : Heap) (a b : Nat)
    (hr : equalBody rec h a b = .ok TRUE) :
    a = b ∨
      (a &&& 0x00000007 = 1 ∧ b &&& 0x00000007 = 1 ∧
        ∃ n, load h (a &&& 0xFFFFFFFE) = some n ∧ load h (b &&& 0xFFFFFFFE) = some n ∧
          ∀ j, j < (toInt32 n).toNat →
            ∃ x y r, load h ((a &&& 0xFFFFFFFE) + 4 * (1 + j)) = some x ∧
              load h ((b &&& 0xFFFFFFFE) + 4 * (1 + j)) = some y ∧
              rec x y = .ok r ∧ r ≠ FALSE) := by
  by_cases hab : a = b
  · exact Or.inl hab
  · refine Or.inr ?_
    by_cases ht : a &&& 0x00000007 = 1 ∧ b &&& 0x00000007 = 1
    · refine ⟨ht.1, ht.2, ?_⟩
      unfold equalBody at hr
      rw [if_neg hab, if_pos ht] at hr
      simp only at hr
      split at hr
      next c1 c2 h1 h2 =>
        split at hr
        · simp only [Outcome.ok.injEq] at hr
          exact absurd hr.symm TRUE_ne_FALSE
        next hc =>
          have hc2 : c1 = c2 := not_not.1 hc
          subst hc2
          split at hr
          · cases hr
          · exact ⟨c1, h1, h2, equalLoop_true_elim rec h _ _ _ _ hr⟩
      · cases hr
    · rw [equalBody_not_tuples _ h a b hab ht] at hr
      simp only [Outcome.ok.injEq] at hr
      exact absurd hr.symm TRUE_ne_FALSE

/-- Whenever `equal` returns `TRUE`, the two words are structurally equal; no
assumption on the heap is needed for this direction. -/
theorem structurallyEqual_of_equal_true (h : Heap) (fuel a b : Nat)
    (hr : equal h fuel a b = .ok TRUE) : StructurallyEqual h a b := by
  rw [equal_unfold] at hr
  rcases equalBody_true_elim _ h a b hr with hab | ⟨ta, tb, n, h1, h2, hall⟩
  · exact Or.inl hab
  · refine Or.inr ⟨ta, tb, n, h1, h2, ?_⟩
    intro i hi1 hi2
    obtain ⟨x, y, r, hx, hy, hrec, hne⟩ := hall (i - 1) (by omega)
    have hi : 1 + (i - 1) = i := by omega
    rw [hi] at hx hy
    refine ⟨x, y, hx, hy, ?_⟩
    cases fuel with
    | zero => cases hrec
    | succ f =>
      rcases equal_sentinel h f x y r hrec with hT | hF
      · exact ⟨f, by rw [← hT]; exact hrec⟩
      · exact absurd hF hne

/-- On a heap that is acyclic within depth `d` below both words, structurally
equal words make `equal` return `TRUE` with fuel `d`. -/
theorem equal_true_of_structurallyEqual (h : Heap) (d a b : Nat)
    (ha : acyclicWithin h d a = true) (hb : acyclicWithin h d b = true)
    (hs : StructurallyEqual h a b) : equal h d a b = .ok TRUE := by
  rcases hs with hab | ⟨ta, tb, n, h1, h2, hall⟩
  · subst hab
    rw [equal_unfold]
    exact equalBody_same _ h a
  · by_cases hab : a = b
    · subst hab
      rw [equal_unfold]
      exact equalBody_same _ h a
    · cases d with
      | zero => exact absurd ta (acyclicWithin_zero_elim ha)
      | succ d =>
        obtain ⟨c1, hc1, e1⟩ := acyclicWithin_succ_elim ha ta
        obtain ⟨c2, hc2, e2⟩ := acyclicWithin_succ_elim hb tb
        have hn1 : c1 = n := Option.some.inj (hc1.symm.trans h1)
        have hn2 : c2 = n := Option.some.inj (hc2.symm.trans h2)
        rw [hn1] at e1
        rw [hn2] at e2
        show equalBody (equal h d) h a b = .ok TRUE
        rw [equalBody_tuples _ h a b n n hab ta tb h1 h2]
        have hm : toInt32 n ≠ INT_MAX :=
          count_ne_INT_MAX (fun i hi => (e1 i hi).imp fun _ he => he.1)
        rw [if_neg (not_not.2 rfl), if_neg hm]
        apply equalLoop_true_intro
        intro j hj
        obtain ⟨x, y, hx, hy, f, hf⟩ := hall (1 + j) (by omega) (by omega)
        obtain ⟨x2, hx2, ax⟩ := e1 j hj
        obtain ⟨y2, hy2, ay⟩ := e2 j hj
        rw [Nat.add_comm j 1] at hx2 hy2
        have ex : x2 = x := Option.some.inj (hx2.symm.trans hx)
        have ey : y2 = y := Option.some.inj (hy2.symm.trans hy)
        subst ex
        subst ey
        obtain ⟨r, hr⟩ := equal_terminates h d x2 y2 ax ay
        have k1 := equal_fuel_mono h d (max d f) x2 y2 r (Nat.le_max_left d f) hr
        have k2 := equal_fuel_mono h f (max d f) x2 y2 TRUE (Nat.le_max_right d f) hf
        have hrT : r = TRUE := Outcome.ok.inj (k1.symm.trans k2)
        subst hrT
        exact ⟨x2, y2, hx, hy, hr⟩

/-- Claim C1. Structural equality: on a heap that is acyclic (and mapped) within
depth `d` below both words, `equal(a, b)` returns `TRUE` exactly when `a` and
`b` are bit-identical or are two tuple references whose records have the same
count `n` and whose element pairs `1..n` all compare `TRUE`; with fuel `d` it
returns `TRUE` in that case and `FALSE` in every other case. -/
theorem equal_structural (h : Heap) (d a b : Nat)
    (ha : acyclicWithin h d a = true) (hb : acyclicWithin h d b = true) :
    (EqualReturns h a b TRUE ↔ StructurallyEqual h a b) ∧
    (StructurallyEqual h a b → equal h d a b = .ok TRUE) ∧
    (¬ StructurallyEqual h a b → equal h d a b = .ok FALSE) := by
  refine ⟨⟨?_, ?_⟩, equal_true_of_structurallyEqual h d a b ha hb, ?_⟩
  · rintro ⟨fuel, hr⟩
    exact structurallyEqual_of_equal_true h fuel a b hr
  · intro hs
    exact ⟨d, equal_true_of_structurallyEqual h d a b ha hb hs⟩
  · intro hns
    obtain ⟨r, hr⟩ := equal_terminates h d a b ha hb
    rcases equal_sentinel h d a b r hr with hT | hF
    · subst hT
      exact absurd (structurallyEqual_of_equal_true h d a b hr) hns
    · subst hF
      exact hr

/-- Witness for C1: two separately allocated records `[3, 2, 4, 6]` (the tuple
`(1, 2, 3)`) at addresses 8 and 24 are referenced by the distinct words 9 and
25, and `equal` returns `TRUE` on them. -/
theorem equal_structural_witness :
    acyclicWithin (heapOfList 8 [3, 2, 4, 6, 3, 2, 4, 6]) 1 9 = true ∧
    acyclicWithin (heapOfList 8 [3, 2, 4, 6, 3, 2, 4, 6]) 1 25 = true ∧
    (9 : Nat) ≠ 25 ∧
    equal (heapOfList 8 [3, 2, 4, 6, 3, 2, 4, 6]) 1 9 25 = .ok TRUE :=
  ⟨by decide, by decide, by decide,
    (equal_structural (heapOfList 8 [3, 2, 4, 6, 3, 2, 4, 6]) 1 9 25 (by decide) (by decide)).2.1
      (Or.inr ⟨by decide, by decide, 3, by decide, by decide, fun i h1 h2 => by
        have h3 : toInt32 3 = 3 := by decide
        rw [h3] at h2
        have hi : i = 1 ∨ i = 2 ∨ i = 3 := by omega
        rcases hi with hi | hi | hi
        · subst hi; exact ⟨2, 2, by decide, by decide, 0, by decide⟩
        · subst hi; exact ⟨4, 4, by decide, by decide, 0, by decide⟩
        · subst hi; exact ⟨6, 6, by decide, by decide, 0, by decide⟩⟩)⟩

theorem equal_reflexive_aux (h : Heap) (fuel v : Nat) : equal h fuel v v = .ok TRUE := by
  rw [equal_unfold]
  exact equalBody_same _ h v

/-- Claim C2. Reflexivity: `equal(v, v)` returns `TRUE` for every word `v`, on
every heap and with any fuel, through the identical-word test alone.  It does
so on the heap with nothing mapped, where any read would be undefined, so no
heap word is read. -/
theorem equal_reflexive (h : Heap) (fuel v : Nat) :
    equal h fuel v v = .ok TRUE ∧ equal emptyHeap fuel v v = .ok TRUE := by
  exact ⟨equal_reflexive_aux h fuel v, equal_reflexive_aux emptyHeap fuel v⟩

/-- Claim C3. Commutativity: swapping the arguments never changes the outcome of
`equal`, and on a heap that is acyclic within depth `d` below both words the
two calls return the same word. -/
theorem equal_commutative (h : Heap) (d a b : Nat)
    (ha : acyclicWithin h d a = true) (hb : acyclicWithin h d b = true) :
    (∀ fuel, equal h fuel a b = equal h fuel b a) ∧
    ∃ r, equal h d a b = .ok r ∧ equal h d b a = .ok r := by
  refine ⟨fun fuel => equal_comm h fuel a b, ?_⟩
  obtain ⟨r, hr⟩ := equal_terminates h d a b ha hb
  exact ⟨r, hr, by rw [← equal_comm h d a b]; exact hr⟩

/-- Witness for C3: a record `[2, 2, 4]` against a record `[2, 2, 6]`, compared
in both orders. -/
theorem equal_commutative_witness :
    acyclicWithin (heapOfList 8 [2, 2, 4, 0, 2, 2, 6]) 1 9 = true ∧
    acyclicWithin (heapOfList 8 [2, 2, 4, 0, 2, 2, 6]) 1 25 = true ∧
    ((∀ fuel, equal (heapOfList 8 [2, 2, 4, 0, 2, 2, 6]) fuel 9 25 =
        equal (heapOfList 8 [2, 2, 4, 0, 2, 2, 6]) fuel 25 9) ∧
      ∃ r, equal (heapOfList 8 [2, 2, 4, 0, 2, 2, 6]) 1 9 25 = .ok r ∧
        equal (heapOfList 8 [2, 2, 4, 0, 2, 2, 6]) 1 25 9 = .ok r) :=
  ⟨by decide, by decide,
    equal_commutative (heapOfList 8 [2, 2, 4, 0, 2, 2, 6]) 1 9 25 (by decide) (by decide)⟩

theorem and_seven_eq_mod (w : Nat) : w &&& 0x00000007 = w % 8 :=
  Nat.and_pow_two_sub_one_eq_mod w 3

theorem encodeInt_even (k : Int) : encodeInt k % 2 = 0 := by
  unfold encodeInt
  omega

theorem encodeInt_not_tuple (k : Int) : encodeInt k &&& 0x00000007 ≠ 1 := by
  rw [and_seven_eq_mod]
  have := encodeInt_even k
  omega

theorem encodeInt_injective (k1 k2 : Int) (l1 : -2 ^ 30 ≤ k1) (u1 : k1 < 2 ^ 30)
    (l2 : -2 ^ 30 ≤ k2) (u2 : k2 < 2 ^ 30) (he : encodeInt k1 = encodeInt k2) : k1 = k2 := by
  unfold encodeInt at he
  omega

theorem load_onlyAt (h : Heap) (ps : List Nat) (p : Nat) (hp : p ∈ ps) :
    load (onlyAt h ps) p = load h p := by
  unfold load onlyAt
  simp [hp]

/-- Claim C4. Count mismatch: for two tuple-tagged words whose records have
different count words, `equal` returns `FALSE` with any fuel and whatever else
the heap holds; it does so on the heap in which only the two count words are
mapped, so no element word is read. -/
theorem equal_count_mismatch (h : Heap) (fuel a b c1 c2 : Nat)
    (ta : a &&& 0x00000007 = 1) (tb : b &&& 0x00000007 = 1)
    (h1 : load h (a &&& 0xFFFFFFFE) = some c1) (h2 : load h (b &&& 0xFFFFFFFE) = some c2)
    (hne : c1 ≠ c2) :
    equal h fuel a b = .ok FALSE ∧
    equal (onlyAt h [a &&& 0xFFFFFFFE, b &&& 0xFFFFFFFE]) fuel a b = .ok FALSE := by
  have hab : a ≠ b := by
    intro e
    subst e
    exact hne (Option.some.inj (h1.symm.trans h2))
  constructor
  · rw [equal_unfold, equalBody_tuples _ h a b c1 c2 hab ta tb h1 h2, if_pos hne]
  · rw [equal_unfold, equalBody_tuples _ _ a b c1 c2 hab ta tb
      (by rw [load_onlyAt _ _ _ (by simp)]; exact h1)
      (by rw [load_onlyAt _ _ _ (by simp)]; exact h2), if_pos hne]

/-- Witness for C4: a record of count 2 against a record of count 3 with the
same leading elements. -/
theorem equal_count_mismatch_witness :
    (9 : Nat) &&& 0x00000007 = 1 ∧ (25 : Nat) &&& 0x00000007 = 1 ∧
    load (heapOfList 8 [2, 2, 4, 0, 3, 2, 4, 6]) (9 &&& 0xFFFFFFFE) = some 2 ∧
    load (heapOfList 8 [2, 2, 4, 0, 3, 2, 4, 6]) (25 &&& 0xFFFFFFFE) = some 3 ∧
    (equal (heapOfList 8 [2, 2, 4, 0, 3, 2, 4, 6]) 0 9 25 = .ok FALSE ∧
      equal (onlyAt (heapOfList 8 [2, 2, 4, 0, 3, 2, 4, 6])
        [9 &&& 0xFFFFFFFE, 25 &&& 0xFFFFFFFE]) 0 9 25 = .ok FALSE) :=
  ⟨by decide, by decide, by decide, by decide,
    equal_count_mismatch (heapOfList 8 [2, 2, 4, 0, 3, 2, 4, 6]) 0 9 25 2 3
      (by decide) (by decide) (by decide) (by decide) (by decide)⟩

theorem equal_of_not_tuples (h : Heap) (fuel a b : Nat) (hne : a ≠ b)
    (ht : ¬ (a &&& 0x00000007 = 1 ∧ b &&& 0x00000007 = 1)) : equal h fuel a b = .ok FALSE := by
  rw [equal_unfold]
  exact equalBody_not_tuples _ h a b hne ht

/-- Claim C5. Tag mismatch: two different words of which at least one is not
tuple-tagged compare `FALSE` on every heap and with any fuel, also on the heap
with nothing mapped (nothing is dereferenced, no undefined outcome).  Hence an
encoded integer or a boolean sentinel never equals a tuple reference, and two
encoded integers compare `TRUE` exactly when they are the same integer. -/
theorem equal_tag_mismatch (h : Heap) (fuel : Nat) :
    (∀ a b : Nat, a ≠ b → ¬ (a &&& 0x00000007 = 1 ∧ b &&& 0x00000007 = 1) →
      equal h fuel a b = .ok FALSE ∧ equal emptyHeap fuel a b = .ok FALSE) ∧
    (∀ (k : Int) (t : Nat), t &&& 0x00000007 = 1 →
      equal h fuel (encodeInt k) t = .ok FALSE ∧ equal h fuel t (encodeInt k) = .ok FALSE) ∧
    (∀ t : Nat, t &&& 0x00000007 = 1 →
      equal h fuel TRUE t = .ok FALSE ∧ equal h fuel t TRUE = .ok FALSE ∧
      equal h fuel FALSE t = .ok FALSE ∧ equal h fuel t FALSE = .ok FALSE) ∧
    (∀ k1 k2 : Int, -2 ^ 30 ≤ k1 → k1 < 2 ^ 30 → -2 ^ 30 ≤ k2 → k2 < 2 ^ 30 →
      (equal h fuel (encodeInt k1) (encodeInt k2) = .ok TRUE ↔ k1 = k2)) := by
  refine ⟨?_, ?_, ?_, ?_⟩
  · intro a b hne ht
    exact ⟨equal_of_not_tuples h fuel a b hne ht, equal_of_not_tuples emptyHeap fuel a b hne ht⟩
  · intro k t ht
    have hk := encodeInt_not_tuple k
    have hne : encodeInt k ≠ t := fun e => hk (e ▸ ht)
    exact ⟨equal_of_not_tuples h fuel _ _ hne (fun c => hk c.1),
      equal_of_not_tuples h fuel _ _ (fun e => hne e.symm) (fun c => hk c.2)⟩
  · intro t ht
    have hT : TRUE &&& 0x00000007 ≠ 1 := by decide
    have hF : FALSE &&& 0x00000007 ≠ 1 := by decide
    have hneT : TRUE ≠ t := fun e => hT (e ▸ ht)
    have hneF : FALSE ≠ t := fun e => hF (e ▸ ht)
    exact ⟨equal_of_not_tuples h fuel _ _ hneT (fun c => hT c.1),
      equal_of_not_tuples h fuel _ _ (fun e => hneT e.symm) (fun c => hT c.2),
      equal_of_not_tuples h fuel _ _ hneF (fun c => hF c.1),
      equal_of_not_tuples h fuel _ _ (fun e => hneF e.symm) (fun c => hF c.2)⟩
  · intro k1 k2 l1 u1 l2 u2
    constructor
    · intro hr
      by_contra hk
      have hne : encodeInt k1 ≠ encodeInt k2 :=
        fun e => hk (encodeInt_injective k1 k2 l1 u1 l2 u2 e)
      rw [equal_of_not_tuples h fuel _ _ hne (fun c => encodeInt_not_tuple k1 c.1)] at hr
      simp only [Outcome.ok.injEq] at hr
      exact TRUE_ne_FALSE hr.symm
    · intro hk
      subst hk
      exact (equal_reflexive_aux h fuel _)

/-- Witness for C5: the integer word 10 against the tuple reference 9 of the
record `[1, 10]`; a sentinel against that reference; the integers 5 and 7; the
integer -3 with itself. -/
theorem equal_tag_mismatch_witness :
    ((10 : Nat) ≠ 9 ∧ ¬ ((10 : Nat) &&& 0x00000007 = 1 ∧ (9 : Nat) &&& 0x00000007 = 1) ∧
      equal (heapOfList 8 [1, 10]) 0 10 9 = .ok FALSE ∧ equal emptyHeap 0 10 9 = .ok FALSE) ∧
    ((9 : Nat) &&& 0x00000007 = 1 ∧
      equal emptyHeap 0 (encodeInt 5) 9 = .ok FALSE ∧
      equal emptyHeap 0 9 (encodeInt 5) = .ok FALSE) ∧
    (equal emptyHeap 0 TRUE 9 = .ok FALSE ∧ equal emptyHeap 0 9 TRUE = .ok FALSE ∧
      equal emptyHeap 0 FALSE 9 = .ok FALSE ∧ equal emptyHeap 0 9 FALSE = .ok FALSE) ∧
    ((equal emptyHeap 0 (encodeInt 5) (encodeInt 7) = .ok TRUE ↔ (5 : Int) = 7) ∧
      (equal emptyHeap 0 (encodeInt (-3)) (encodeInt (-3)) = .ok TRUE ↔ (-3 : Int) = -3)) :=
  ⟨⟨by decide, by decide,
      (equal_tag_mismatch (heapOfList 8 [1, 10]) 0).1 10 9 (by decide) (by decide)⟩,
    ⟨by decide, (equal_tag_mismatch emptyHeap 0).2.1 5 9 (by decide)⟩,
    (equal_tag_mismatch emptyHeap 0).2.2.1 9 (by decide),
    ⟨(equal_tag_mismatch emptyHeap 0).2.2.2 5 7 (by decide) (by decide) (by decide) (by decide),
      (equal_tag_mismatch emptyHeap 0).2.2.2 (-3) (-3) (by decide) (by decide) (by decide)
        (by decide)⟩⟩

/-- Claim C6. `equal` answers with a boolean sentinel: on a heap that is acyclic
within depth `d` below both words it returns, and the word returned is
`0xFFFFFFFF` (`TRUE`) or `0x7FFFFFFF` (`FALSE`); more generally no run of
`equal`, on any heap and with any fuel, returns any other word. -/
theorem equal_returns_sentinel (h : Heap) (d a b : Nat)
    (ha : acyclicWithin h d a = true) (hb : acyclicWithin h d b = true) :
    (∃ r, equal h d a b = .ok r ∧ (r = 0xFFFFFFFF ∨ r = 0x7FFFFFFF)) ∧
    (∀ fuel r, equal h fuel a b = .ok r → r = 0xFFFFFFFF ∨ r = 0x7FFFFFFF) := by
  constructor
  · obtain ⟨r, hr⟩ := equal_terminates h d a b ha hb
    exact ⟨r, hr, equal_sentinel h d a b r hr⟩
  · intro fuel r hr
    exact equal_sentinel h fuel a b r hr

/-- Witness for C6: a tuple nested in a tuple, `((1), 2)` against `((1), 3)`. -/
theorem equal_returns_sentinel_witness :
    acyclicWithin (heapOfList 8 [1, 2, 2, 9, 4, 0, 2, 9, 6]) 2 17 = true ∧
    acyclicWithin (heapOfList 8 [1, 2, 2, 9, 4, 0, 2, 9, 6]) 2 33 = true ∧
    ((∃ r, equal (heapOfList 8 [1, 2, 2, 9, 4, 0, 2, 9, 6]) 2 17 33 = .ok r ∧
        (r = 0xFFFFFFFF ∨ r = 0x7FFFFFFF)) ∧
      (∀ fuel r, equal (heapOfList 8 [1, 2, 2, 9, 4, 0, 2, 9, 6]) fuel 17 33 = .ok r →
        r = 0xFFFFFFFF ∨ r = 0x7FFFFFFF)) :=
  ⟨by decide, by decide,
    equal_returns_sentinel (heapOfList 8 [1, 2, 2, 9, 4, 0, 2, 9, 6]) 2 17 33
      (by decide) (by decide)⟩

/-! ## Lemmas about `print_simple` -/

theorem print_simple_unfold (h : Heap) (fuel v : Nat) :
    print_simple h fuel v =
      printSimpleBody (match fuel with | 0 => fun _ => .outOfFuel | f + 1 => print_simple h f)
        h v := by
  cases fuel <;> rfl

/-- The function `print_simple` dispatches on the variant `classify` computes. -/
theorem printSimpleBody_eq_printVariant (rec : Nat → Outcome String) (h : Heap) (v : Nat) :
    printSimpleBody rec h v = printVariant rec h v (classify v) := by
  unfold printSimpleBody classify
  split_ifs <;> rfl

theorem lowbit_test (w : Nat) : ((w &&& 0x00000001) ^^^ 0x00000001 ≠ 0) ↔ w % 2 = 0 := by
  rw [Nat.and_one_is_mod]
  rcases Nat.mod_two_eq_zero_or_one w with h0 | h1
  · rw [h0]; decide
  · rw [h1]; decide

theorem classify_integer_iff (w : Nat) : classify w = .integer ↔ w % 2 = 0 := by
  unfold classify
  rw [← lowbit_test]
  split_ifs <;> simp_all

theorem classify_tupleRef_iff (w : Nat) : classify w = .tupleRef ↔ w &&& 0x00000007 = 1 := by
  constructor
  · unfold classify
    split_ifs <;> simp_all
  · intro ht
    have h8 : w % 8 = 1 := by rw [← and_seven_eq_mod]; exact ht
    have h2 : ¬ ((w &&& 0x00000001) ^^^ 0x00000001 ≠ 0) := by
      rw [lowbit_test]; omega
    have hT : w ≠ 0xFFFFFFFF := by intro e; rw [e] at h8; revert h8; decide
    have hF : w ≠ 0x7FFFFFFF := by intro e; rw [e] at h8; revert h8; decide
    unfold classify
    rw [if_neg h2, if_neg hT, if_neg hF, if_pos ht]

theorem classify_boolTrue_iff (w : Nat) : classify w = .boolTrue ↔ w = 0xFFFFFFFF := by
  constructor
  · unfold classify
    split_ifs <;> simp_all
  · intro e; subst e; decide

theorem classify_boolFalse_iff (w : Nat) : classify w = .boolFalse ↔ w = 0x7FFFFFFF := by
  constructor
  · unfold classify
    split_ifs <;> simp_all
  · intro e; subst e; decide

theorem classify_unrecognized_iff (w : Nat) :
    classify w = .unrecognized ↔
      (w % 2 ≠ 0 ∧ w ≠ 0xFFFFFFFF ∧ w ≠ 0x7FFFFFFF ∧ w &&& 0x00000007 ≠ 1) := by
  unfold classify
  rw [ne_eq (w % 2), ← lowbit_test]
  split_ifs <;> simp_all

theorem intercalate_go_append (x acc sep : String) (l : List String) :
    String.intercalate.go (x ++ acc) sep l = x ++ String.intercalate.go acc sep l := by
  induction l generalizing acc with
  | nil => rfl
  | cons a l ih =>
    simp only [String.intercalate.go]
    rw [String.append_assoc, String.append_assoc, ih, String.append_assoc]

theorem intercalate_cons_cons (sep a b : String) (l : List String) :
    sep.intercalate (a :: b :: l) = a ++ sep ++ sep.intercalate (b :: l) := by
  simp only [String.intercalate, String.intercalate.go]
  rw [String.append_assoc, String.append_assoc, intercalate_go_append, intercalate_go_append]

/-- The element loop of `print_simple`, entered so that its last index is the
count, prints the element texts joined by single commas. -/
theorem printLoop_ok (rec : Nat → Outcome String) (h : Heap) (vp : Nat) (count : Int) :
    ∀ (n i : Nat), (n = 0 ∨ ((i + n : Nat) : Int) = count + 1) →
      (∀ j, j < n → ∃ e s, load h (vp + 4 * (i + j)) = some e ∧ rec e = .ok s) →
      ∃ texts : List String, texts.length = n ∧
        (∀ j s, texts[j]? = some s →
          ∃ e, load h (vp + 4 * (i + j)) = some e ∧ rec e = .ok s) ∧
        printLoop rec h vp count n i = .ok (",".intercalate texts) := by
  intro n
  induction n with
  | zero =>
    intro i _ _
    exact ⟨[], rfl, fun j s hj => by simp at hj, rfl⟩
  | succ n ih =>
    intro i hc hall
    obtain ⟨e, s, he, hs⟩ := hall 0 (Nat.succ_pos n)
    simp only [Nat.add_zero] at he
    have hc2 : ((i + (n + 1) : Nat) : Int) = count + 1 := by
      rcases hc with h0 | h1
      · exact absurd h0 (Nat.succ_ne_zero n)
      · exact h1
    obtain ⟨texts, hlen, hel, hpr⟩ := ih (i + 1)
      (Or.inr (by rw [← hc2]; congr 1; omega))
      (fun j hj => by
        have := hall (j + 1) (Nat.succ_lt_succ hj)
        simpa [Nat.add_assoc, Nat.add_comm 1 j] using this)
    refine ⟨s :: texts, by simp [hlen], ?_, ?_⟩
    · intro j t hj
      cases j with
      | zero =>
        simp only [List.getElem?_cons_zero, Option.some.injEq] at hj
        subst hj
        exact ⟨e, by simpa using he, hs⟩
      | succ j =>
        simp only [List.getElem?_cons_succ] at hj
        have := hel j t hj
        simpa [Nat.add_assoc, Nat.add_comm 1 j] using this
    · simp only [printLoop, he, hs, hpr]
      cases texts with
      | nil =>
        have hn : n = 0 := by simpa using hlen.symm
        have hlt : ¬ ((i : Int) < count) := by
          subst hn
          push_cast at hc2
          omega
        rw [if_neg hlt]
        simp [String.intercalate, String.intercalate.go]
      | cons t ts =>
        have hn : 0 < n := by rw [← hlen]; simp
        have hlt : (i : Int) < count := by
          push_cast at hc2
          omega
        rw [if_pos hlt, intercalate_cons_cons]

theorem printTuple_ok (rec : Nat → Outcome String) (h : Heap) (w c : Nat)
    (hc : load h (w &&& 0xFFFFFFFE) = some c)
    (hall : ∀ j, j < (toInt32 c).toNat →
      ∃ e s, load h ((w &&& 0xFFFFFFFE) + 4 * (1 + j)) = some e ∧ rec e = .ok s) :
    ∃ texts : List String, texts.length = (toInt32 c).toNat ∧
      (∀ j s, texts[j]? = some s →
        ∃ e, load h ((w &&& 0xFFFFFFFE) + 4 * (1 + j)) = some e ∧ rec e = .ok s) ∧
      printTuple rec h w = .ok ("(" ++ ",".intercalate texts ++ ")") := by
  have hm : toInt32 c ≠ INT_MAX :=
    @count_ne_INT_MAX h (w &&& 0xFFFFFFFE) c (fun i hi => by
      obtain ⟨e, _, he, _⟩ := hall i hi
      exact ⟨e, by rw [Nat.add_comm i 1]; exact he⟩)
  obtain ⟨texts, hlen, hel, hpr⟩ := printLoop_ok rec h (w &&& 0xFFFFFFFE) (toInt32 c)
    (toInt32 c).toNat 1 (by omega) hall
  refine ⟨texts, hlen, hel, ?_⟩
  unfold printTuple
  simp only [hc, if_neg hm, hpr]

/-- With the word acyclic within depth `d`, fuel `d` is enough for
`print_simple` to print a text. -/
theorem print_simple_terminates (h : Heap) : ∀ (d w : Nat),
    acyclicWithin h d w = true → ∃ s, print_simple h d w = .ok s := by
  intro d
  induction d with
  | zero =>
    intro w hw
    rw [print_simple_unfold, printSimpleBody_eq_printVariant]
    cases hcl : classify w with
    | integer => exact ⟨_, rfl⟩
    | boolTrue => exact ⟨_, rfl⟩
    | boolFalse => exact ⟨_, rfl⟩
    | tupleRef => exact absurd ((classify_tupleRef_iff w).1 hcl) (acyclicWithin_zero_elim hw)
    | unrecognized => exact ⟨_, rfl⟩
  | succ d ih =>
    intro w hw
    rw [print_simple_unfold, printSimpleBody_eq_printVariant]
    cases hcl : classify w with
    | integer => exact ⟨_, rfl⟩
    | boolTrue => exact ⟨_, rfl⟩
    | boolFalse => exact ⟨_, rfl⟩
    | tupleRef =>
      obtain ⟨c, hc, he⟩ := acyclicWithin_succ_elim hw ((classify_tupleRef_iff w).1 hcl)
      obtain ⟨texts, _, _, hp⟩ := printTuple_ok (print_simple h d) h w c hc (fun j hj => by
        obtain ⟨e, hle, hae⟩ := he j hj
        obtain ⟨s, hs⟩ := ih e hae
        exact ⟨e, s, by rw [Nat.add_comm 1 j]; exact hle, hs⟩)
      exact ⟨_, hp⟩
    | unrecognized => exact ⟨_, rfl⟩

/-- Claim C7. Tuple rendering format: for a tuple-tagged word `v` whose record
has count word `n`, on a heap acyclic within depth `d` below `v`,
`print_simple(v)` prints `(`, then the texts printed for the elements
`1..n` in increasing index order joined by single commas, then `)`: one text
per element (none when the count is not positive), so `n - 1` separators for
`n ≥ 1`, none for `n = 0`, nothing after the last element and no spaces. -/
theorem print_simple_tuple_format (h : Heap) (d v n : Nat)
    (hv : acyclicWithin h d v = true) (ht : v &&& 0x00000007 = 1)
    (hn : load h (v &&& 0xFFFFFFFE) = some n) :
    ∃ texts : List String, texts.length = (toInt32 n).toNat ∧
      (∀ j s, texts[j]? = some s →
        ∃ e, load h ((v &&& 0xFFFFFFFE) + 4 * (1 + j)) = some e ∧ PrintReturns h e s) ∧
      print_simple h d v = .ok ("(" ++ ",".intercalate texts ++ ")") := by
  cases d with
  | zero => exact absurd ht (acyclicWithin_zero_elim hv)
  | succ d =>
    obtain ⟨c, hc, he⟩ := acyclicWithin_succ_elim hv ht
    have hcn : c = n := Option.some.inj (hc.symm.trans hn)
    rw [hcn] at he
    obtain ⟨texts, hlen, hel, hp⟩ := printTuple_ok (print_simple h d) h v n hn (fun j hj => by
      obtain ⟨e, hle, hae⟩ := he j hj
      obtain ⟨s, hs⟩ := print_simple_terminates h d e hae
      exact ⟨e, s, by rw [Nat.add_comm 1 j]; exact hle, hs⟩)
    refine ⟨texts, hlen, ?_, ?_⟩
    · intro j s hj
      obtain ⟨e, hle, hs⟩ := hel j s hj
      exact ⟨e, hle, d, hs⟩
    · rw [print_simple_unfold, printSimpleBody_eq_printVariant, (classify_tupleRef_iff v).2 ht]
      exact hp

/-- Witness for C7: the record `[3, 2, 4, 6]` prints `(1,2,3)`; the empty record
prints `()`, the record `[1, 10]` prints `(5)` and the record
`[2, 0xFFFFFFFF, 0x7FFFFFFF]` prints `(true,false)`. -/
theorem print_simple_tuple_format_witness :
    acyclicWithin (heapOfList 8 [3, 2, 4, 6]) 1 9 = true ∧ (9 : Nat) &&& 0x00000007 = 1 ∧
    load (heapOfList 8 [3, 2, 4, 6]) (9 &&& 0xFFFFFFFE) = some 3 ∧
    (∃ texts : List String, texts.length = (toInt32 3).toNat ∧
      (∀ j s, texts[j]? = some s →
        ∃ e, load (heapOfList 8 [3, 2, 4, 6]) ((9 &&& 0xFFFFFFFE) + 4 * (1 + j)) = some e ∧
          PrintReturns (heapOfList 8 [3, 2, 4, 6]) e s) ∧
      print_simple (heapOfList 8 [3, 2, 4, 6]) 1 9 = .ok ("(" ++ ",".intercalate texts ++ ")")) ∧
    print_simple (heapOfList 8 [3, 2, 4, 6]) 1 9 = .ok "(1,2,3)" ∧
    print_simple (heapOfList 8 [0]) 1 9 = .ok "()" ∧
    print_simple (heapOfList 8 [1, 10]) 1 9 = .ok "(5)" ∧
    print_simple (heapOfList 8 [2, 0xFFFFFFFF, 0x7FFFFFFF]) 1 9 = .ok "(true,false)" :=
  ⟨by decide, by decide, by decide,
    print_simple_tuple_format (heapOfList 8 [3, 2, 4, 6]) 1 9 3 (by decide) (by decide) (by decide),
    by decide, by decide, by decide, by decide⟩

/-! ## Integers, sentinels and the classifier -/

theorem toInt32_encodeInt (k : Int) (lo : -2 ^ 30 ≤ k) (hi : k < 2 ^ 30) :
    toInt32 (encodeInt k) = 2 * k := by
  unfold toInt32 encodeInt
  split_ifs <;> omega

theorem digitChar_isDigit (m : Nat) : (Nat.digitChar (m % 10)).isDigit = true := by
  have hlt : m % 10 < 10 := Nat.mod_lt m (by decide)
  generalize m % 10 = x at hlt
  interval_cases x <;> decide

theorem toDigitsCore_head : ∀ (fuel n : Nat) (ds : List Char),
    ∃ m rest, Nat.toDigitsCore 10 (fuel + 1) n ds = Nat.digitChar (m % 10) :: rest := by
  intro fuel
  induction fuel with
  | zero =>
    intro n ds
    simp only [Nat.toDigitsCore]
    split_ifs
    · exact ⟨n, ds, rfl⟩
    · exact ⟨n, ds, rfl⟩
  | succ f ih =>
    intro n ds
    rw [Nat.toDigitsCore]
    split_ifs
    · exact ⟨n, ds, rfl⟩
    · exact ih _ _

/-- The text `%d` prints starts with `-` for a negative number and with a
decimal digit otherwise. -/
theorem fmt_d_head (k : Int) :
    ∃ c rest, (fmt_d k).data = c :: rest ∧ (k < 0 → c = '-') ∧ (0 ≤ k → c.isDigit = true) := by
  cases k with
  | ofNat m =>
    obtain ⟨x, rest, hx⟩ := toDigitsCore_head m m []
    refine ⟨Nat.digitChar (x % 10), rest, ?_, ?_, ?_⟩
    · show Nat.toDigits 10 m = _
      exact hx
    · intro hneg
      exact absurd hneg (by simp)
    · intro _
      exact digitChar_isDigit x
  | negSucc m =>
    refine ⟨'-', (Nat.toDigits 10 (m + 1)), ?_, fun _ => rfl, ?_⟩
    · show ("-" ++ String.mk (Nat.toDigits 10 (m + 1))).data = _
      rw [String.data_append]
      rfl
    · intro hpos
      exact absurd hpos (by simp [Int.negSucc_lt_zero])

theorem digitChar_toNat (x : Nat) (hx : x < 10) : (Nat.digitChar x).toNat - 48 = x := by
  interval_cases x <;> decide

theorem digitChar_isDigit_of_lt (x : Nat) (hx : x < 10) : (Nat.digitChar x).isDigit = true := by
  interval_cases x <;> decide

theorem toDigitsCore_append : ∀ (fuel n : Nat) (ds : List Char),
    Nat.toDigitsCore 10 fuel n ds = Nat.toDigitsCore 10 fuel n [] ++ ds := by
  intro fuel
  induction fuel with
  | zero => intro n ds; rfl
  | succ f ih =>
    intro n ds
    simp only [Nat.toDigitsCore]
    split_ifs
    · rfl
    · rw [ih (n / 10) (_ :: ds), ih (n / 10) [_], List.append_assoc]
      rfl

theorem decimalValue_snoc (cs : List Char) (c : Char) :
    decimalValue (cs ++ [c]) = 10 * decimalValue cs + (c.toNat - 48) := by
  simp [decimalValue, List.foldl_append]

/-- The digits `%d` prints for `n` are decimal digits and denote `n`. -/
theorem toDigitsCore_value : ∀ (fuel n : Nat), n < fuel →
    decimalValue (Nat.toDigitsCore 10 fuel n []) = n ∧
    ∀ c ∈ Nat.toDigitsCore 10 fuel n [], c.isDigit = true := by
  intro fuel
  induction fuel with
  | zero => intro n hn; exact absurd hn (Nat.not_lt_zero n)
  | succ f ih =>
    intro n hn
    simp only [Nat.toDigitsCore]
    have hd : n % 10 < 10 := Nat.mod_lt n (by decide)
    split_ifs with h0
    · constructor
      · simp only [decimalValue, List.foldl_cons, List.foldl_nil]
        rw [digitChar_toNat _ hd]
        omega
      · intro c hc
        simp only [List.mem_singleton] at hc
        rw [hc]
        exact digitChar_isDigit_of_lt _ hd
    · rw [toDigitsCore_append]
      obtain ⟨hv, hall⟩ := ih (n / 10) (by omega)
      constructor
      · rw [decimalValue_snoc, hv, digitChar_toNat _ hd]
        omega
      · intro c hc
        rcases List.mem_append.1 hc with h1 | h1
        · exact hall c h1
        · simp only [List.mem_singleton] at h1
          rw [h1]
          exact digitChar_isDigit_of_lt _ hd

theorem readDecimal_fmt_d (k : Int) : readDecimal (fmt_d k) = k := by
  cases k with
  | ofNat m =>
    obtain ⟨hv, hall⟩ := toDigitsCore_value (m + 1) m (Nat.lt_succ_self m)
    have hd : (fmt_d (Int.ofNat m)).data = Nat.toDigitsCore 10 (m + 1) m [] := rfl
    have hh : ¬ (fmt_d (Int.ofNat m)).data.head? = some '-' := by
      intro hc
      have hmem := List.mem_of_mem_head? hc
      rw [hd] at hmem
      exact absurd (hall _ hmem) (by decide)
    unfold readDecimal
    rw [if_neg hh, hd, hv]
    rfl
  | negSucc m =>
    obtain ⟨hv, _⟩ := toDigitsCore_value (m + 1 + 1) (m + 1) (Nat.lt_succ_self _)
    have hd : (fmt_d (Int.negSucc m)).data = '-' :: Nat.toDigitsCore 10 (m + 1 + 1) (m + 1) [] := by
      show ("-" ++ String.mk (Nat.toDigits 10 (m + 1))).data = _
      rw [String.data_append]
      rfl
    unfold readDecimal
    rw [hd]
    simp only [List.head?_cons, if_true, List.tail_cons]
    rw [hv]
    rfl

/-- The text `%d` prints determines the number printed. -/
theorem fmt_d_injective (k1 k2 : Int) (he : fmt_d k1 = fmt_d k2) : k1 = k2 := by
  rw [← readDecimal_fmt_d k1, ← readDecimal_fmt_d k2, he]

/-- The text `%d` prints consists of decimal digits after an optional `-`. -/
theorem fmt_d_chars (k : Int) : ∀ c ∈ (fmt_d k).data, c = '-' ∨ c.isDigit = true := by
  cases k with
  | ofNat m =>
    obtain ⟨_, hall⟩ := toDigitsCore_value (m + 1) m (Nat.lt_succ_self m)
    intro c hc
    exact Or.inr (hall c hc)
  | negSucc m =>
    obtain ⟨_, hall⟩ := toDigitsCore_value (m + 1 + 1) (m + 1) (Nat.lt_succ_self _)
    have hd : (fmt_d (Int.negSucc m)).data = '-' :: Nat.toDigitsCore 10 (m + 1 + 1) (m + 1) [] := by
      show ("-" ++ String.mk (Nat.toDigits 10 (m + 1))).data = _
      rw [String.data_append]
      rfl
    intro c hc
    rw [hd] at hc
    rcases List.mem_cons.1 hc with h1 | h1
    · exact Or.inl h1
    · exact Or.inr (hall c h1)

theorem print_simple_integer (h : Heap) (fuel w : Nat) (hw : w % 2 = 0) :
    print_simple h fuel w = .ok (fmt_d (toInt32 w >>> (1 : Nat))) := by
  rw [print_simple_unfold, printSimpleBody_eq_printVariant, (classify_integer_iff w).2 hw]
  rfl

/-- Claim C8. Integer round trip: for `-2^30 ≤ k < 2^30` the word `2 * k`, as a
32-bit two's complement pattern, has low bit 0, is taken by the integer branch
of `print_simple`, its arithmetic right shift by one is `k`, and `print_simple`
prints the decimal text of `k`: decimal digits after an optional `-`, which
read back as `k`, with the `-` in front exactly when `k < 0`. -/
theorem integer_round_trip (h : Heap) (fuel : Nat) (k : Int)
    (lo : -2 ^ 30 ≤ k) (hi : k < 2 ^ 30) :
    toInt32 (encodeInt k) = 2 * k ∧
    encodeInt k &&& 0x00000001 = 0 ∧
    classify (encodeInt k) = .integer ∧
    toInt32 (encodeInt k) >>> (1 : Nat) = k ∧
    print_simple h fuel (encodeInt k) = .ok (fmt_d k) ∧
    fmt_d k = toString k ∧
    readDecimal (fmt_d k) = k ∧
    (∀ c ∈ (fmt_d k).data, c = '-' ∨ c.isDigit = true) ∧
    ((fmt_d k).data.head? = some '-' ↔ k < 0) := by
  have hev := encodeInt_even k
  have h2k := toInt32_encodeInt k lo hi
  have hsh : toInt32 (encodeInt k) >>> (1 : Nat) = k := by
    rw [h2k, Int.shiftRight_eq_div_pow]
    omega
  refine ⟨h2k, ?_, (classify_integer_iff _).2 hev, hsh, ?_, ?_, readDecimal_fmt_d k,
    fmt_d_chars k, ?_⟩
  · rw [Nat.and_one_is_mod]; exact hev
  · rw [print_simple_integer h fuel _ hev, hsh]
  · cases k <;> rfl
  · obtain ⟨c, rest, hd, hneg, hpos⟩ := fmt_d_head k
    rw [hd]
    simp only [List.head?_cons, Option.some.injEq]
    constructor
    · intro hc
      by_contra hk
      have := hpos (by omega)
      rw [hc] at this
      revert this
      decide
    · exact hneg

/-- Witness for C8: the integer 5 is the word 10, which prints `5`; the
integer -7 prints `-7`. -/
theorem integer_round_trip_witness :
    (-2 ^ 30 ≤ (5 : Int) ∧ (5 : Int) < 2 ^ 30) ∧
    (toInt32 (encodeInt 5) = 2 * 5 ∧
      encodeInt 5 &&& 0x00000001 = 0 ∧
      classify (encodeInt 5) = .integer ∧
      toInt32 (encodeInt 5) >>> (1 : Nat) = 5 ∧
      print_simple emptyHeap 0 (encodeInt 5) = .ok (fmt_d 5) ∧
      fmt_d 5 = toString (5 : Int) ∧
      readDecimal (fmt_d 5) = 5 ∧
      (∀ c ∈ (fmt_d 5).data, c = '-' ∨ c.isDigit = true) ∧
      ((fmt_d 5).data.head? = some '-' ↔ (5 : Int) < 0)) ∧
    encodeInt 5 = 10 ∧ print_simple emptyHeap 0 10 = .ok "5" ∧
    print_simple emptyHeap 0 (encodeInt (-7)) = .ok "-7" :=
  ⟨⟨by decide, by decide⟩, integer_round_trip emptyHeap 0 5 (by decide) (by decide),
    by decide, by decide, by decide⟩

theorem printTuple_head (rec : Nat → Outcome String) (h : Heap) (w : Nat) (s : String)
    (hs : printTuple rec h w = .ok s) : s.data.head? = some '(' := by
  unfold printTuple at hs
  simp only at hs
  split at hs
  · split at hs
    · cases hs
    · split at hs
      next elts _ =>
        simp only [Outcome.ok.injEq] at hs
        rw [← hs, String.append_assoc, String.data_append]
        rfl
      · cases hs
      · cases hs
  · cases hs

/-- The first character of whatever `print_simple` prints tells the variant of
the word apart: a digit or `-` for an integer, `t`, `f`, `(` and `U` for the
others. -/
theorem printVariant_head (rec : Nat → Outcome String) (h : Heap) (w : Nat) (s : String)
    (hs : printVariant rec h w (classify w) = .ok s) :
    (classify w = .integer ∧ ∃ c, s.data.head? = some c ∧ (c = '-' ∨ c.isDigit = true)) ∨
    (classify w = .boolTrue ∧ s = "true") ∨
    (classify w = .boolFalse ∧ s = "false") ∨
    (classify w = .tupleRef ∧ s.data.head? = some '(') ∨
    (classify w = .unrecognized ∧ s.data.head? = some 'U') := by
  cases hcl : classify w with
  | integer =>
    rw [hcl] at hs
    simp only [printVariant, Outcome.ok.injEq] at hs
    obtain ⟨c, rest, hd, hneg, hpos⟩ := fmt_d_head (toInt32 w >>> (1 : Nat))
    refine Or.inl ⟨rfl, c, by rw [← hs, hd]; rfl, ?_⟩
    by_cases hk : toInt32 w >>> (1 : Nat) < 0
    · exact Or.inl (hneg hk)
    · exact Or.inr (hpos (by omega))
  | boolTrue =>
    rw [hcl] at hs
    simp only [printVariant, Outcome.ok.injEq] at hs
    exact Or.inr (Or.inl ⟨rfl, hs.symm⟩)
  | boolFalse =>
    rw [hcl] at hs
    simp only [printVariant, Outcome.ok.injEq] at hs
    exact Or.inr (Or.inr (Or.inl ⟨rfl, hs.symm⟩))
  | tupleRef =>
    rw [hcl] at hs
    exact Or.inr (Or.inr (Or.inr (Or.inl ⟨rfl, printTuple_head rec h w s hs⟩)))
  | unrecognized =>
    rw [hcl] at hs
    simp only [printVariant, Outcome.ok.injEq] at hs
    refine Or.inr (Or.inr (Or.inr (Or.inr ⟨rfl, ?_⟩)))
    rw [← hs, String.data_append]
    rfl

theorem print_simple_eq_printVariant (h : Heap) (fuel w : Nat) :
    print_simple h fuel w =
      printVariant (match fuel with | 0 => fun _ => .outOfFuel | f + 1 => print_simple h f)
        h w (classify w) := by
  rw [print_simple_unfold, printSimpleBody_eq_printVariant]

/-- Claim C9. Boolean sentinels: on every heap and with any fuel `print_simple(w)`
prints exactly `true` if and only if `w = 0xFFFFFFFF` and exactly `false` if
and only if `w = 0x7FFFFFFF`; neither sentinel passes the integer test (low
bit 0) or the tuple test (low three bits 001), so no encoded integer and no
tuple reference is a sentinel. -/
theorem sentinels_decode (h : Heap) (fuel w : Nat) :
    (print_simple h fuel w = .ok "true" ↔ w = 0xFFFFFFFF) ∧
    (print_simple h fuel w = .ok "false" ↔ w = 0x7FFFFFFF) ∧
    classify TRUE = .boolTrue ∧ classify FALSE = .boolFalse ∧
    TRUE &&& 0x00000001 ≠ 0 ∧ TRUE &&& 0x00000007 ≠ 1 ∧
    FALSE &&& 0x00000001 ≠ 0 ∧ FALSE &&& 0x00000007 ≠ 1 ∧
    (∀ k : Int, encodeInt k ≠ TRUE ∧ encodeInt k ≠ FALSE) ∧
    (∀ t : Nat, t &&& 0x00000007 = 1 → t ≠ TRUE ∧ t ≠ FALSE) := by
  refine ⟨⟨?_, ?_⟩, ⟨?_, ?_⟩, by decide, by decide, by decide, by decide, by decide, by decide,
    ?_, ?_⟩
  · intro hs
    rw [print_simple_eq_printVariant] at hs
    rcases printVariant_head _ h w _ hs with ⟨_, c, hc, hd⟩ | ⟨hcl, _⟩ | ⟨_, hf⟩ | ⟨_, hp⟩ | ⟨_, hu⟩
    · have hct : c = 't' := by
        have : ("true" : String).data.head? = some 't' := by decide
        rw [this] at hc
        exact (Option.some.inj hc).symm
      subst hct
      rcases hd with hd | hd
      · exact absurd hd (by decide)
      · exact absurd hd (by decide)
    · exact (classify_boolTrue_iff w).1 hcl
    · exact absurd hf (by decide)
    · exact absurd hp (by decide)
    · exact absurd hu (by decide)
  · intro e
    subst e
    rw [print_simple_eq_printVariant]
    rfl
  · intro hs
    rw [print_simple_eq_printVariant] at hs
    rcases printVariant_head _ h w _ hs with ⟨_, c, hc, hd⟩ | ⟨_, ht⟩ | ⟨hcl, _⟩ | ⟨_, hp⟩ | ⟨_, hu⟩
    · have hct : c = 'f' := by
        have : ("false" : String).data.head? = some 'f' := by decide
        rw [this] at hc
        exact (Option.some.inj hc).symm
      subst hct
      rcases hd with hd | hd
      · exact absurd hd (by decide)
      · exact absurd hd (by decide)
    · exact absurd ht (by decide)
    · exact (classify_boolFalse_iff w).1 hcl
    · exact absurd hp (by decide)
    · exact absurd hu (by decide)
  · intro e
    subst e
    rw [print_simple_eq_printVariant]
    rfl
  · intro k
    have := encodeInt_even k
    constructor
    · intro e; rw [e] at this; revert this; decide
    · intro e; rw [e] at this; revert this; decide
  · intro t ht
    constructor
    · intro e; rw [e] at ht; revert ht; decide
    · intro e; rw [e] at ht; revert ht; decide

/-- Witness for C9: the word `TRUE` itself, and the tuple reference 9. -/
theorem sentinels_decode_witness :
    (9 : Nat) &&& 0x00000007 = 1 ∧ ((9 : Nat) ≠ TRUE ∧ (9 : Nat) ≠ FALSE) ∧
    print_simple emptyHeap 0 0xFFFFFFFF = .ok "true" ∧
    print_simple emptyHeap 0 0x7FFFFFFF = .ok "false" :=
  ⟨by decide, (sentinels_decode emptyHeap 0 TRUE).2.2.2.2.2.2.2.2.2 9 (by decide),
    (sentinels_decode emptyHeap 0 0xFFFFFFFF).1.2 rfl,
    (sentinels_decode emptyHeap 0 0x7FFFFFFF).2.1.2 rfl⟩

theorem classify_eq_classifySentinelsFirst (w : Nat) : classify w = classifySentinelsFirst w := by
  have hl := lowbit_test w
  have h1 := Nat.and_one_is_mod w
  unfold classify classifySentinelsFirst
  by_cases hT : w = 0xFFFFFFFF
  · subst hT; decide
  · by_cases hF : w = 0x7FFFFFFF
    · subst hF; decide
    · rw [if_neg hT, if_neg hF, if_neg hT, if_neg hF]
      by_cases he : w % 2 = 0
      · rw [if_pos (hl.2 he), h1, if_pos he]
      · rw [if_neg (fun c => he (hl.1 c)), h1, if_neg he]

/-- Claim C10. Every word decodes to exactly one variant, whatever the order of
the tests: of the five conditions - low bit 0, word `0xFFFFFFFF`, word
`0x7FFFFFFF`, low three bits 001, none of these - exactly one holds, each of
them alone decides the variant `print_simple` dispatches on, and that variant is
the one found by the classifier that tests the sentinels before the tag bits. -/
theorem classify_total_order_independent (w : Nat) :
    classify w = classifySentinelsFirst w ∧
    (classify w = .integer ↔ w &&& 0x00000001 = 0) ∧
    (classify w = .boolTrue ↔ w = 0xFFFFFFFF) ∧
    (classify w = .boolFalse ↔ w = 0x7FFFFFFF) ∧
    (classify w = .tupleRef ↔ w &&& 0x00000007 = 1) ∧
    (classify w = .unrecognized ↔
      (¬ w &&& 0x00000001 = 0 ∧ w ≠ 0xFFFFFFFF ∧ w ≠ 0x7FFFFFFF ∧ ¬ w &&& 0x00000007 = 1)) ∧
    [decide (w &&& 0x00000001 = 0), decide (w = 0xFFFFFFFF), decide (w = 0x7FFFFFFF),
      decide (w &&& 0x00000007 = 1),
      decide (¬ w &&& 0x00000001 = 0 ∧ w ≠ 0xFFFFFFFF ∧ w ≠ 0x7FFFFFFF ∧
        ¬ w &&& 0x00000007 = 1)].count true = 1 ∧
    (∀ (rec : Nat → Outcome String) (h : Heap),
      printSimpleBody rec h w = printVariant rec h w (classify w)) ∧
    (∀ (h : Heap) (fuel : Nat), print_simple h (fuel + 1) w =
      printVariant (print_simple h fuel) h w (classifySentinelsFirst w)) := by
  have h1 := Nat.and_one_is_mod w
  have h7 := and_seven_eq_mod w
  refine ⟨classify_eq_classifySentinelsFirst w, ?_, classify_boolTrue_iff w,
    classify_boolFalse_iff w, classify_tupleRef_iff w, ?_, ?_,
    fun rec h => printSimpleBody_eq_printVariant rec h w, ?_⟩
  · rw [h1]; exact classify_integer_iff w
  · rw [h1]; exact classify_unrecognized_iff w
  · rw [h1, h7]
    by_cases hT : w = 0xFFFFFFFF
    · subst hT; decide
    · by_cases hF : w = 0x7FFFFFFF
      · subst hF; decide
      · have h8 : w % 8 < 8 := Nat.mod_lt w (by decide)
        have h2 : w % 2 = w % 8 % 2 := by omega
        rw [h2]
        generalize w % 8 = x at h8
        simp only [hT, hF, decide_False, ne_eq, not_false_eq_true, true_and]
        interval_cases x <;> decide
  · intro h fuel
    rw [← classify_eq_classifySentinelsFirst]
    exact printSimpleBody_eq_printVariant _ h w

/-! ## Unrecognized words, `print`, `error`, counts that are not positive -/

theorem hexDigit_of_lt (x : Nat) (hx : x < 16) :
    hexDigitValue (Nat.digitChar x) = x ∧ Nat.digitChar x ∈ lowerHexDigits := by
  interval_cases x <;> decide

theorem toDigitsCore16_append : ∀ (fuel n : Nat) (ds : List Char),
    Nat.toDigitsCore 16 fuel n ds = Nat.toDigitsCore 16 fuel n [] ++ ds := by
  intro fuel
  induction fuel with
  | zero => intro n ds; rfl
  | succ f ih =>
    intro n ds
    simp only [Nat.toDigitsCore]
    split_ifs
    · rfl
    · rw [ih (n / 16) (_ :: ds), ih (n / 16) [_], List.append_assoc]
      rfl

theorem hexValue_snoc (cs : List Char) (c : Char) :
    hexValue (cs ++ [c]) = 16 * hexValue cs + hexDigitValue c := by
  simp [hexValue, List.foldl_append]

/-- The digits `%x` prints for `n` are lower-case hexadecimal digits and
denote `n`. -/
theorem toDigitsCore16_value : ∀ (fuel n : Nat), n < fuel →
    hexValue (Nat.toDigitsCore 16 fuel n []) = n ∧
    ∀ c ∈ Nat.toDigitsCore 16 fuel n [], c ∈ lowerHexDigits := by
  intro fuel
  induction fuel with
  | zero => intro n hn; exact absurd hn (Nat.not_lt_zero n)
  | succ f ih =>
    intro n hn
    simp only [Nat.toDigitsCore]
    have hd : n % 16 < 16 := Nat.mod_lt n (by decide)
    obtain ⟨hval, hmem⟩ := hexDigit_of_lt _ hd
    split_ifs with h0
    · constructor
      · simp only [hexValue, List.foldl_cons, List.foldl_nil]
        rw [hval]
        omega
      · intro c hc
        simp only [List.mem_singleton] at hc
        rw [hc]
        exact hmem
    · rw [toDigitsCore16_append]
      obtain ⟨hv, hall⟩ := ih (n / 16) (by omega)
      constructor
      · rw [hexValue_snoc, hv, hval]
        omega
      · intro c hc
        rcases List.mem_append.1 hc with h1 | h1
        · exact hall c h1
        · simp only [List.mem_singleton] at h1
          rw [h1]
          exact hmem

theorem hexValue_replicate_zero (k : Nat) (ds : List Char) :
    hexValue (List.replicate k '0' ++ ds) = hexValue ds := by
  induction k with
  | zero => rfl
  | succ k ih =>
    have h0 : hexDigitValue '0' = 0 := by decide
    unfold hexValue at ih ⊢
    rw [List.replicate_succ, List.cons_append, List.foldl_cons, h0]
    exact ih

/-- The eight digits `%#010x` prints after `0x` for a non-zero 32-bit word. -/
theorem hex8_spec (w : Nat) (hw : w < 2 ^ 32) :
    (List.leftpad 8 '0' (Nat.toDigits 16 w)).length = 8 ∧
    (∀ c ∈ List.leftpad 8 '0' (Nat.toDigits 16 w), c ∈ lowerHexDigits) ∧
    hexValue (List.leftpad 8 '0' (Nat.toDigits 16 w)) = w := by
  have hlen : (Nat.toDigits 16 w).length ≤ 8 :=
    Nat.toDigitsCore_length 16 (by decide) (w + 1) w 8 (by omega) (by decide)
  obtain ⟨hv, hall⟩ := toDigitsCore16_value (w + 1) w (Nat.lt_succ_self w)
  refine ⟨?_, ?_, ?_⟩
  · rw [List.leftpad_length]
    exact max_eq_left hlen
  · intro c hc
    unfold List.leftpad at hc
    rcases List.mem_append.1 hc with h1 | h1
    · rw [(List.mem_replicate.1 h1).2]
      decide
    · exact hall c h1
  · unfold List.leftpad
    rw [hexValue_replicate_zero]
    exact hv

theorem print_simple_unrecognized (h : Heap) (fuel w : Nat)
    (hcl : classify w = .unrecognized) :
    print_simple h fuel w = .ok ("Unknown value: " ++ fmt_hash_010x w) := by
  rw [print_simple_eq_printVariant, hcl]
  rfl

/-- Claim C11. Unrecognized words are printed, not rejected: for a 32-bit word
`w` with low bit 1 that is neither sentinel and is not tuple-tagged,
`print_simple(w)` prints `Unknown value: 0x` followed by exactly eight
lower-case hexadecimal digits whose value is `w`, on every heap and with any
fuel, also on the heap with nothing mapped (no heap word is read and the
outcome is not undefined). -/
theorem print_simple_unknown (h : Heap) (fuel w : Nat) (hw : w < 2 ^ 32)
    (hbit : w &&& 0x00000001 = 1) (hT : w ≠ 0xFFFFFFFF) (hF : w ≠ 0x7FFFFFFF)
    (ht : w &&& 0x00000007 ≠ 1) :
    ∃ ds : List Char, ds.length = 8 ∧ (∀ c ∈ ds, c ∈ lowerHexDigits) ∧ hexValue ds = w ∧
      print_simple h fuel w = .ok ("Unknown value: 0x" ++ String.mk ds) ∧
      print_simple emptyHeap 0 w = .ok ("Unknown value: 0x" ++ String.mk ds) := by
  have h2 : w % 2 = 1 := by rw [← Nat.and_one_is_mod]; exact hbit
  have hcl : classify w = .unrecognized :=
    (classify_unrecognized_iff w).2 ⟨by omega, hT, hF, ht⟩
  have h0 : w ≠ 0 := by omega
  obtain ⟨hlen, hall, hval⟩ := hex8_spec w hw
  have hfmt : "Unknown value: " ++ fmt_hash_010x w =
      "Unknown value: 0x" ++ String.mk (List.leftpad 8 '0' (Nat.toDigits 16 w)) := by
    unfold fmt_hash_010x
    rw [if_neg h0, ← String.append_assoc]
    rfl
  refine ⟨_, hlen, hall, hval, ?_, ?_⟩
  · rw [print_simple_unrecognized h fuel w hcl, hfmt]
  · rw [print_simple_unrecognized emptyHeap 0 w hcl, hfmt]

/-- Witness for C11: the word `0x0000000B` prints `Unknown value: 0x0000000b`. -/
theorem print_simple_unknown_witness :
    (0x0000000B : Nat) < 2 ^ 32 ∧ (0x0000000B : Nat) &&& 0x00000001 = 1 ∧
    (0x0000000B : Nat) ≠ 0xFFFFFFFF ∧ (0x0000000B : Nat) ≠ 0x7FFFFFFF ∧
    (0x0000000B : Nat) &&& 0x00000007 ≠ 1 ∧
    (∃ ds : List Char, ds.length = 8 ∧ (∀ c ∈ ds, c ∈ lowerHexDigits) ∧
      hexValue ds = 0x0000000B ∧
      print_simple emptyHeap 0 0x0000000B = .ok ("Unknown value: 0x" ++ String.mk ds) ∧
      print_simple emptyHeap 0 0x0000000B = .ok ("Unknown value: 0x" ++ String.mk ds)) ∧
    print_simple emptyHeap 0 0x0000000B = .ok "Unknown value: 0x0000000b" :=
  ⟨by decide, by decide, by decide, by decide, by decide,
    print_simple_unknown emptyHeap 0 0x0000000B (by decide) (by decide) (by decide) (by decide)
      (by decide),
    by decide⟩

/-- Claim C12. The function `print` is an identity pass-through: whenever
`print_simple(v)` prints a text `s`, `print(v)` writes `s` followed by one
newline and returns `v`; `print` returns nothing else; and on a heap acyclic
within depth `d` below `v` it does return. -/
theorem print_pass_through (h : Heap) (fuel v : Nat) :
    (∀ s, print_simple h fuel v = .ok s → print h fuel v = .ok (s ++ "\n", v)) ∧
    (∀ t r, print h fuel v = .ok (t, r) →
      r = v ∧ ∃ s, print_simple h fuel v = .ok s ∧ t = s ++ "\n") ∧
    (acyclicWithin h fuel v = true → ∃ s, print h fuel v = .ok (s ++ "\n", v)) := by
  refine ⟨?_, ?_, ?_⟩
  · intro s hs
    unfold print
    rw [hs]
  · intro t r hp
    unfold print at hp
    split at hp
    next s hs =>
      simp only [Outcome.ok.injEq, Prod.mk.injEq] at hp
      exact ⟨hp.2.symm, s, hs, hp.1.symm⟩
    · cases hp
    · cases hp
  · intro hv
    obtain ⟨s, hs⟩ := print_simple_terminates h fuel v hv
    refine ⟨s, ?_⟩
    unfold print
    rw [hs]

/-- Witness for C12: on the record `[3, 2, 4, 6]` the output is `(1,2,3)` and a
newline, and the word returned is the tuple reference passed in. -/
theorem print_pass_through_witness :
    print_simple (heapOfList 8 [3, 2, 4, 6]) 1 9 = .ok "(1,2,3)" ∧
    print (heapOfList 8 [3, 2, 4, 6]) 1 9 = .ok ("(1,2,3)" ++ "\n", 9) ∧
    print (heapOfList 8 [3, 2, 4, 6]) 1 9 = .ok ("(1,2,3)\n", 9) ∧
    acyclicWithin (heapOfList 8 [3, 2, 4, 6]) 1 9 = true ∧
    (∃ s, print (heapOfList 8 [3, 2, 4, 6]) 1 9 = .ok (s ++ "\n", 9)) :=
  ⟨by decide,
    (print_pass_through (heapOfList 8 [3, 2, 4, 6]) 1 9).1 "(1,2,3)" (by decide),
    by decide, by decide,
    (print_pass_through (heapOfList 8 [3, 2, 4, 6]) 1 9).2.2 (by decide)⟩

/-- Claim C13. Fault taxonomy: for every code `i`, `error(i)` does not return;
it ends the process through `exit(i)` after writing one message to the error
stream.  The message is the fixed text of the code for `i = 0..6`, and for any
other `i` the unknown-error-code text with the decimal value of `i`. -/
theorem error_taxonomy (i : Int) :
    (∀ u : Unit, error i ≠ .returned u) ∧
    (∃ msg, error i = .exited msg i) ∧
    error 0 = .exited "Error: comparison operator got non-number" 0 ∧
    error 1 = .exited "Error: arithmetic operator got non-number" 1 ∧
    error 2 = .exited "Error: if condition got non-boolean" 2 ∧
    error 3 = .exited "Error: Integer overflow" 3 ∧
    error 4 = .exited "Error: not a tuple" 4 ∧
    error 5 = .exited "Error: index too small" 5 ∧
    error 6 = .exited "Error: index too large" 6 ∧
    ((i < 0 ∨ 6 < i) →
      error i = .exited ("Error: Unknown error code: " ++ fmt_d i ++ "\n") i ∧
      readDecimal (fmt_d i) = i) := by
  refine ⟨?_, ⟨_, rfl⟩, by decide, by decide, by decide, by decide, by decide, by decide,
    by decide, ?_⟩
  · intro u hu
    cases hu
  · intro hi
    refine ⟨?_, readDecimal_fmt_d i⟩
    unfold error
    have h0 : i ≠ 0 := by omega
    have h1 : i ≠ 1 := by omega
    have h2 : i ≠ 2 := by omega
    have h3 : i ≠ 3 := by omega
    have h4 : i ≠ 4 := by omega
    have h5 : i ≠ 5 := by omega
    have h6 : i ≠ 6 := by omega
    simp only [h0, h1, h2, h3, h4, h5, h6, if_false]

/-- Witness for C13: code 5 writes `Error: index too small` and exits with
status 5; code 7 writes the unknown-error-code text with `7`. -/
theorem error_taxonomy_witness :
    error 5 = .exited "Error: index too small" 5 ∧
    ((7 : Int) < 0 ∨ (6 : Int) < 7) ∧
    (error 7 = .exited ("Error: Unknown error code: " ++ fmt_d 7 ++ "\n") 7 ∧
      readDecimal (fmt_d 7) = 7) ∧
    error 7 = .exited "Error: Unknown error code: 7\n" 7 ∧
    error (-1) = .exited "Error: Unknown error code: -1\n" (-1) :=
  ⟨(error_taxonomy 5).2.2.2.2.2.2.2.1, by decide,
    (error_taxonomy 7).2.2.2.2.2.2.2.2.2 (by decide), by decide, by decide⟩

theorem printTuple_nonpositive (rec : Nat → Outcome String) (h : Heap) (v c : Nat)
    (hc : load h (v &&& 0xFFFFFFFE) = some c) (hle : toInt32 c ≤ 0) :
    printTuple rec h v = .ok "()" := by
  have hm : toInt32 c ≠ INT_MAX := by
    intro e
    rw [e] at hle
    exact absurd hle (by decide)
  have hn : (toInt32 c).toNat = 0 := by omega
  unfold printTuple
  simp only [hc, if_neg hm, hn, printLoop]
  rfl

theorem print_simple_nonpositive (h : Heap) (fuel v c : Nat) (ht : v &&& 0x00000007 = 1)
    (hc : load h (v &&& 0xFFFFFFFE) = some c) (hle : toInt32 c ≤ 0) :
    print_simple h fuel v = .ok "()" := by
  rw [print_simple_eq_printVariant, (classify_tupleRef_iff v).2 ht]
  exact printTuple_nonpositive _ h v c hc hle

theorem equal_nonpositive (h : Heap) (fuel a b c : Nat) (hab : a ≠ b)
    (ta : a &&& 0x00000007 = 1) (tb : b &&& 0x00000007 = 1)
    (h1 : load h (a &&& 0xFFFFFFFE) = some c) (h2 : load h (b &&& 0xFFFFFFFE) = some c)
    (hle : toInt32 c ≤ 0) : equal h fuel a b = .ok TRUE := by
  have hm : toInt32 c ≠ INT_MAX := by
    intro e
    rw [e] at hle
    exact absurd hle (by decide)
  have hn : (toInt32 c).toNat = 0 := by omega
  rw [equal_unfold, equalBody_tuples _ h a b c c hab ta tb h1 h2, if_neg (not_not.2 rfl),
    if_neg hm, hn]
  rfl

theorem equal_counts_differ (h : Heap) (fuel a b c1 c2 : Nat)
    (ta : a &&& 0x00000007 = 1) (tb : b &&& 0x00000007 = 1)
    (h1 : load h (a &&& 0xFFFFFFFE) = some c1) (h2 : load h (b &&& 0xFFFFFFFE) = some c2)
    (hne : c1 ≠ c2) : equal h fuel a b = .ok FALSE := by
  have hab : a ≠ b := by
    intro e
    subst e
    exact hne (Option.some.inj (h1.symm.trans h2))
  rw [equal_unfold, equalBody_tuples _ h a b c1 c2 hab ta tb h1 h2, if_pos hne]

/-- Claim C19. Counts are signed and a count that is not positive means no
elements: a tuple-tagged word whose count word is zero or negative as a signed
`int` prints `()`, also on the heap where only its count word is mapped; two
distinct such references with the same count word compare `TRUE`, also on the
heap where only the two count words are mapped; and two such records with
different count words both print `()` yet compare `FALSE`. -/
theorem nonpositive_count_no_elements (h : Heap) (fuel : Nat) :
    (∀ v c : Nat, v &&& 0x00000007 = 1 → load h (v &&& 0xFFFFFFFE) = some c →
      toInt32 c ≤ 0 →
      print_simple h fuel v = .ok "()" ∧
      print_simple (onlyAt h [v &&& 0xFFFFFFFE]) fuel v = .ok "()") ∧
    (∀ a b c : Nat, a ≠ b → a &&& 0x00000007 = 1 → b &&& 0x00000007 = 1 →
      load h (a &&& 0xFFFFFFFE) = some c → load h (b &&& 0xFFFFFFFE) = some c →
      toInt32 c ≤ 0 →
      equal h fuel a b = .ok TRUE ∧
      equal (onlyAt h [a &&& 0xFFFFFFFE, b &&& 0xFFFFFFFE]) fuel a b = .ok TRUE) ∧
    (∀ a b c1 c2 : Nat, a &&& 0x00000007 = 1 → b &&& 0x00000007 = 1 →
      load h (a &&& 0xFFFFFFFE) = some c1 → load h (b &&& 0xFFFFFFFE) = some c2 →
      toInt32 c1 ≤ 0 → toInt32 c2 ≤ 0 → c1 ≠ c2 →
      print_simple h fuel a = .ok "()" ∧ print_simple h fuel b = .ok "()" ∧
      equal h fuel a b = .ok FALSE) := by
  refine ⟨?_, ?_, ?_⟩
  · intro v c ht hc hle
    refine ⟨print_simple_nonpositive h fuel v c ht hc hle,
      print_simple_nonpositive _ fuel v c ht ?_ hle⟩
    rw [load_onlyAt _ _ _ (by simp)]
    exact hc
  · intro a b c hab ta tb h1 h2 hle
    refine ⟨equal_nonpositive h fuel a b c hab ta tb h1 h2 hle,
      equal_nonpositive _ fuel a b c hab ta tb ?_ ?_ hle⟩
    · rw [load_onlyAt _ _ _ (by simp)]
      exact h1
    · rw [load_onlyAt _ _ _ (by simp)]
      exact h2
  · intro a b c1 c2 ta tb h1 h2 l1 l2 hne
    exact ⟨print_simple_nonpositive h fuel a c1 ta h1 l1,
      print_simple_nonpositive h fuel b c2 tb h2 l2,
      equal_counts_differ h fuel a b c1 c2 ta tb h1 h2 hne⟩

/-- Witness for C19: records with count words `0`, `0xFFFFFFFF` (that is -1) and
`0xFFFFFFFF` at addresses 8, 16 and 24, referenced by the words 9, 17 and 25. -/
theorem nonpositive_count_no_elements_witness :
    (toInt32 0 ≤ 0 ∧ toInt32 0xFFFFFFFF ≤ 0 ∧ toInt32 0xFFFFFFFF = -1) ∧
    (print_simple (heapOfList 8 [0, 7, 0xFFFFFFFF, 7, 0xFFFFFFFF, 5]) 0 17 = .ok "()" ∧
      print_simple (onlyAt (heapOfList 8 [0, 7, 0xFFFFFFFF, 7, 0xFFFFFFFF, 5])
        [17 &&& 0xFFFFFFFE]) 0 17 = .ok "()") ∧
    (equal (heapOfList 8 [0, 7, 0xFFFFFFFF, 7, 0xFFFFFFFF, 5]) 0 17 25 = .ok TRUE ∧
      equal (onlyAt (heapOfList 8 [0, 7, 0xFFFFFFFF, 7, 0xFFFFFFFF, 5])
        [17 &&& 0xFFFFFFFE, 25 &&& 0xFFFFFFFE]) 0 17 25 = .ok TRUE) ∧
    (print_simple (heapOfList 8 [0, 7, 0xFFFFFFFF, 7, 0xFFFFFFFF, 5]) 0 9 = .ok "()" ∧
      print_simple (heapOfList 8 [0, 7, 0xFFFFFFFF, 7, 0xFFFFFFFF, 5]) 0 17 = .ok "()" ∧
      equal (heapOfList 8 [0, 7, 0xFFFFFFFF, 7, 0xFFFFFFFF, 5]) 0 9 17 = .ok FALSE) :=
  ⟨by decide,
    (nonpositive_count_no_elements (heapOfList 8 [0, 7, 0xFFFFFFFF, 7, 0xFFFFFFFF, 5]) 0).1
      17 0xFFFFFFFF (by decide) (by decide) (by decide),
    (nonpositive_count_no_elements (heapOfList 8 [0, 7, 0xFFFFFFFF, 7, 0xFFFFFFFF, 5]) 0).2.1
      17 25 0xFFFFFFFF (by decide) (by decide) (by decide) (by decide) (by decide) (by decide),
    (nonpositive_count_no_elements (heapOfList 8 [0, 7, 0xFFFFFFFF, 7, 0xFFFFFFFF, 5]) 0).2.2
      9 17 0 0xFFFFFFFF (by decide) (by decide) (by decide) (by decide) (by decide) (by decide)
      (by decide)⟩

/-! ## Termination from a rank -/

theorem acyclicWithin_of_not_tuple (h : Heap) (d w : Nat) (ht : w &&& 0x00000007 ≠ 1) :
    acyclicWithin h d w = true := by
  cases d with
  | zero => simp [acyclicWithin, ht]
  | succ d => simp [acyclicWithin, ht]

theorem acyclicWithin_succ_intro (h : Heap) (d w c : Nat)
    (hc : load h (w &&& 0xFFFFFFFE) = some c)
    (hall : ∀ i, i < (toInt32 c).toNat →
      ∃ e, load h ((w &&& 0xFFFFFFFE) + 4 * (i + 1)) = some e ∧ acyclicWithin h d e = true) :
    acyclicWithin h (d + 1) w = true := by
  by_cases ht : w &&& 0x00000007 = 1
  · rw [acyclicWithin]
    simp only [ht, if_true, hc, List.all_eq_true, List.mem_range]
    intro i hi
    obtain ⟨e, hle, hae⟩ := hall i hi
    simp only [hle]
    exact hae
  · exact acyclicWithin_of_not_tuple h (d + 1) w ht

/-- A rank bounds the nesting depth: a word that refers to a record of rank
below `n` is acyclic within depth `n`. -/
theorem acyclicWithin_of_rank (h : Heap) (isRecord : Nat → Prop) (rank : Nat → Nat)
    (hr : RankedRecords h isRecord rank) :
    ∀ (n v : Nat), RefersToRecord isRecord v →
      (v &&& 0x00000007 = 1 → rank (v &&& 0xFFFFFFFE) < n) → acyclicWithin h n v = true := by
  intro n
  induction n with
  | zero =>
    intro v _ hlt
    exact acyclicWithin_of_not_tuple h 0 v (fun ht => Nat.not_lt_zero _ (hlt ht))
  | succ n ih =>
    intro v hv hlt
    by_cases ht : v &&& 0x00000007 = 1
    · obtain ⟨c, hc, hel⟩ := hr _ (hv ht)
      apply acyclicWithin_succ_intro h n v c hc
      intro i hi
      obtain ⟨e, he, href⟩ := hel (i + 1) (by omega) (by omega)
      refine ⟨e, he, ih e (fun te => (href te).1) (fun te => ?_)⟩
      have h1 := (href te).2
      have h2 := hlt ht
      omega
    · exact acyclicWithin_of_not_tuple h (n + 1) v ht

/-- Claim C14. Termination on acyclic heaps: when a rank on the record
addresses strictly decreases from every record to the records its elements
refer to, and counts and elements are mapped, `print_simple(v)` prints a text
for every word `v` and `equal(a, b)` returns a sentinel for all words `a`, `b`
that refer to records (or are not tuple-tagged).  Fuel one above the rank is
enough, and so is any fuel that bounds the nesting depth of the words. -/
theorem terminates_on_ranked_heap (h : Heap) (isRecord : Nat → Prop) (rank : Nat → Nat)
    (hr : RankedRecords h isRecord rank) :
    (∀ v, RefersToRecord isRecord v →
      acyclicWithin h (rank (v &&& 0xFFFFFFFE) + 1) v = true ∧
      ∃ s, print_simple h (rank (v &&& 0xFFFFFFFE) + 1) v = .ok s) ∧
    (∀ a b, RefersToRecord isRecord a → RefersToRecord isRecord b →
      ∃ r, equal h (max (rank (a &&& 0xFFFFFFFE)) (rank (b &&& 0xFFFFFFFE)) + 1) a b = .ok r ∧
        (r = TRUE ∨ r = FALSE)) ∧
    (∀ d v, acyclicWithin h d v = true → ∃ s, print_simple h d v = .ok s) ∧
    (∀ d a b, acyclicWithin h d a = true → acyclicWithin h d b = true →
      ∃ r, equal h d a b = .ok r ∧ (r = TRUE ∨ r = FALSE)) := by
  have hdepth : ∀ v, RefersToRecord isRecord v →
      acyclicWithin h (rank (v &&& 0xFFFFFFFE) + 1) v = true :=
    fun v hv => acyclicWithin_of_rank h isRecord rank hr _ v hv (fun _ => Nat.lt_succ_self _)
  have heq : ∀ d a b, acyclicWithin h d a = true → acyclicWithin h d b = true →
      ∃ r, equal h d a b = .ok r ∧ (r = TRUE ∨ r = FALSE) := by
    intro d a b ha hb
    obtain ⟨r, hres⟩ := equal_terminates h d a b ha hb
    exact ⟨r, hres, equal_sentinel h d a b r hres⟩
  refine ⟨?_, ?_, fun d v hv => print_simple_terminates h d v hv, heq⟩
  · intro v hv
    exact ⟨hdepth v hv, print_simple_terminates h _ v (hdepth v hv)⟩
  · intro a b ha hb
    apply heq
    · exact acyclicWithin_mono h _ _ a (by omega) (hdepth a ha)
    · exact acyclicWithin_mono h _ _ b (by omega) (hdepth b hb)

/-- Witness for C14: the record `[1, 2]` at address 8 (rank 0) and the record
`[2, 9, 4]` at address 16 (rank 1), whose first element refers to the former. -/
theorem terminates_on_ranked_heap_witness :
    RankedRecords (heapOfList 8 [1, 2, 2, 9, 4]) (fun p => p = 8 ∨ p = 16)
      (fun p => if p = 16 then 1 else 0) ∧
    RefersToRecord (fun p => p = 8 ∨ p = 16) 17 ∧
    (∃ s, print_simple (heapOfList 8 [1, 2, 2, 9, 4]) 2 17 = .ok s) ∧
    print_simple (heapOfList 8 [1, 2, 2, 9, 4]) 2 17 = .ok "((1),2)" ∧
    print_simple (heapOfList 8 [1, 2, 2, 9, 4]) 1 17 = .outOfFuel := by
  have hr : RankedRecords (heapOfList 8 [1, 2, 2, 9, 4]) (fun p => p = 8 ∨ p = 16)
      (fun p => if p = 16 then 1 else 0) := by
    intro p hp
    rcases hp with hp | hp
    · subst hp
      refine ⟨1, by decide, ?_⟩
      intro i h1 h2
      have h3 : toInt32 1 = 1 := by decide
      rw [h3] at h2
      have hi : i = 1 := by omega
      subst hi
      exact ⟨2, by decide, fun ht => absurd ht (by decide)⟩
    · subst hp
      refine ⟨2, by decide, ?_⟩
      intro i h1 h2
      have h3 : toInt32 2 = 2 := by decide
      rw [h3] at h2
      have hi : i = 1 ∨ i = 2 := by omega
      rcases hi with hi | hi
      · subst hi
        exact ⟨9, by decide, fun _ => ⟨Or.inl (by decide), by decide⟩⟩
      · subst hi
        exact ⟨4, by decide, fun ht => absurd ht (by decide)⟩
  have hv : RefersToRecord (fun p => p = 8 ∨ p = 16) 17 := fun _ => Or.inr (by decide)
  exact ⟨hr, hv,
    ((terminates_on_ranked_heap (heapOfList 8 [1, 2, 2, 9, 4]) (fun p => p = 8 ∨ p = 16)
      (fun p => if p = 16 then 1 else 0) hr).1 17 hv).2,
    by decide, by decide⟩

/-! ## Short-circuit of the element loop -/

theorem exists_common_fuel (P : Nat → Nat → Prop)
    (hmono : ∀ i f f2, f ≤ f2 → P i f → P i f2) :
    ∀ j : Nat, (∀ i, i < j → ∃ f, P i f) → ∃ F, ∀ i, i < j → P i F := by
  intro j
  induction j with
  | zero => intro _; exact ⟨0, fun i hi => absurd hi (Nat.not_lt_zero i)⟩
  | succ j ih =>
    intro hall
    obtain ⟨F, hF⟩ := ih (fun i hi => hall i (Nat.lt_succ_of_lt hi))
    obtain ⟨f, hf⟩ := hall j (Nat.lt_succ_self j)
    refine ⟨max F f, fun i hi => ?_⟩
    rcases Nat.lt_succ_iff_lt_or_eq.1 hi with hlt | heq
    · exact hmono i F _ (Nat.le_max_left F f) (hF i hlt)
    · rw [heq]
      exact hmono j f _ (Nat.le_max_right F f) hf

/-- The element loop answers `FALSE` at the first pair that compares `FALSE`,
whatever follows that pair. -/
theorem equalLoop_false_at (rec : Nat → Nat → Outcome Nat) (h : Heap) (p1 p2 : Nat) :
    ∀ (k n i0 : Nat), k < n →
      (∀ m, m < k → ∃ x y r, load h (p1 + 4 * (i0 + m)) = some x ∧
        load h (p2 + 4 * (i0 + m)) = some y ∧ rec x y = .ok r ∧ r ≠ FALSE) →
      (∃ x y, load h (p1 + 4 * (i0 + k)) = some x ∧
        load h (p2 + 4 * (i0 + k)) = some y ∧ rec x y = .ok FALSE) →
      equalLoop rec h p1 p2 n i0 = .ok FALSE := by
  intro k
  induction k with
  | zero =>
    intro n i0 hn _ hat
    obtain ⟨x, y, hx, hy, hr⟩ := hat
    simp only [Nat.add_zero] at hx hy
    cases n with
    | zero => exact absurd hn (Nat.not_lt_zero 0)
    | succ n => simp only [equalLoop, hx, hy, hr, if_true]
  | succ k ih =>
    intro n i0 hn hbefore hat
    cases n with
    | zero => exact absurd hn (Nat.not_lt_zero _)
    | succ n =>
      obtain ⟨x, y, r, hx, hy, hr, hne⟩ := hbefore 0 (Nat.succ_pos k)
      simp only [Nat.add_zero] at hx hy
      simp only [equalLoop, hx, hy, hr, if_neg hne]
      apply ih n (i0 + 1) (Nat.lt_of_succ_lt_succ hn)
      · intro m hm
        have := hbefore (m + 1) (Nat.succ_lt_succ hm)
        simpa [Nat.add_assoc, Nat.add_comm 1 m] using this
      · simpa [Nat.add_assoc, Nat.add_comm 1 k] using hat

/-- Claim C15. Short-circuit: for two distinct tuple-tagged words whose records
have the same count `n` (a record lies within the 32-bit address space), if
the element pairs before index `j` are mapped and their comparisons return a
word other than `FALSE`, and the pair at index `j` (with `1 ≤ j ≤ n`) is mapped
and compares `FALSE`, then `equal(a, b)` returns `FALSE`.  Nothing is assumed
about the element words after index `j`: they may be unmapped or lead into a
cycle. -/
theorem equal_short_circuit (h : Heap) (a b n j : Nat) (hab : a ≠ b)
    (ta : a &&& 0x00000007 = 1) (tb : b &&& 0x00000007 = 1)
    (h1 : load h (a &&& 0xFFFFFFFE) = some n) (h2 : load h (b &&& 0xFFFFFFFE) = some n)
    (hfit : (a &&& 0xFFFFFFFE) + 4 * (toInt32 n).toNat < 2 ^ 32)
    (hj1 : 1 ≤ j) (hjn : (j : Int) ≤ toInt32 n)
    (hbefore : ∀ i, 1 ≤ i → i < j →
      ∃ x y r, load h ((a &&& 0xFFFFFFFE) + 4 * i) = some x ∧
        load h ((b &&& 0xFFFFFFFE) + 4 * i) = some y ∧ EqualReturns h x y r ∧ r ≠ FALSE)
    (hat : ∃ x y, load h ((a &&& 0xFFFFFFFE) + 4 * j) = some x ∧
      load h ((b &&& 0xFFFFFFFE) + 4 * j) = some y ∧ EqualReturns h x y FALSE) :
    EqualReturns h a b FALSE := by
  have hmax : toInt32 n ≠ INT_MAX := by
    intro e
    have hn : (toInt32 n).toNat = 2147483647 := by rw [e]; decide
    omega
  obtain ⟨xj, yj, hxj, hyj, fj, hfj⟩ := hat
  obtain ⟨F, hF⟩ := exists_common_fuel
    (fun m f => ∃ x y r, load h ((a &&& 0xFFFFFFFE) + 4 * (1 + m)) = some x ∧
      load h ((b &&& 0xFFFFFFFE) + 4 * (1 + m)) = some y ∧ equal h f x y = .ok r ∧ r ≠ FALSE)
    (fun m f f2 hle hp => by
      obtain ⟨x, y, r, hx, hy, hr, hne⟩ := hp
      exact ⟨x, y, r, hx, hy, equal_fuel_mono h f f2 x y r hle hr, hne⟩)
    (j - 1)
    (fun m hm => by
      obtain ⟨x, y, r, hx, hy, ⟨f, hr⟩, hne⟩ := hbefore (1 + m) (by omega) (by omega)
      exact ⟨f, x, y, r, hx, hy, hr, hne⟩)
  refine ⟨max F fj + 1, ?_⟩
  show equalBody (equal h (max F fj)) h a b = .ok FALSE
  rw [equalBody_tuples _ h a b n n hab ta tb h1 h2, if_neg (not_not.2 rfl), if_neg hmax]
  apply equalLoop_false_at _ h _ _ (j - 1) _ 1 (by omega)
  · intro m hm
    obtain ⟨x, y, r, hx, hy, hr, hne⟩ := hF m hm
    exact ⟨x, y, r, hx, hy, equal_fuel_mono h F _ x y r (Nat.le_max_left F fj) hr, hne⟩
  · have hj : 1 + (j - 1) = j := by omega
    rw [hj]
    exact ⟨xj, yj, hxj, hyj, equal_fuel_mono h fj _ xj yj FALSE (Nat.le_max_right F fj) hfj⟩

/-- On the heap of the witness for C15, the two one-element records at
addresses 40 and 48 each hold a reference to themselves, and comparing them
never returns. -/
theorem equal_cyclic_pair_diverges : ∀ fuel : Nat,
    equal (heapOfList 8 [2, 2, 41, 0, 2, 4, 49, 0, 1, 41, 1, 49]) fuel 41 49 = .outOfFuel := by
  intro fuel
  induction fuel with
  | zero => decide
  | succ f ih =>
    show equalBody (equal _ f) _ 41 49 = .outOfFuel
    rw [equalBody_tuples _ _ 41 49 1 1 (by decide) (by decide) (by decide) (by decide)
      (by decide)]
    have hn : (toInt32 1).toNat = 1 := by decide
    have hm : toInt32 1 ≠ INT_MAX := by decide
    have l1 : load (heapOfList 8 [2, 2, 41, 0, 2, 4, 49, 0, 1, 41, 1, 49])
        ((41 &&& 0xFFFFFFFE) + 4 * 1) = some 41 := by decide
    have l2 : load (heapOfList 8 [2, 2, 41, 0, 2, 4, 49, 0, 1, 41, 1, 49])
        ((49 &&& 0xFFFFFFFE) + 4 * 1) = some 49 := by decide
    rw [if_neg (not_not.2 rfl), if_neg hm, hn]
    simp only [equalLoop, l1, l2, ih]

/-- Witness for C15: the records `[2, 2, 41]` and `[2, 4, 49]` differ in their
first pair; their second pair refers to two cyclic records whose comparison
never returns, and `equal` still returns `FALSE`. -/
theorem equal_short_circuit_witness :
    EqualReturns (heapOfList 8 [2, 2, 41, 0, 2, 4, 49, 0, 1, 41, 1, 49]) 9 25 FALSE ∧
    equal (heapOfList 8 [2, 2, 41, 0, 2, 4, 49, 0, 1, 41, 1, 49]) 1 9 25 = .ok FALSE ∧
    (∀ fuel : Nat,
      equal (heapOfList 8 [2, 2, 41, 0, 2, 4, 49, 0, 1, 41, 1, 49]) fuel 41 49 = .outOfFuel) ∧
    load (heapOfList 8 [2, 2, 41, 0, 2, 4, 49, 0, 1, 41, 1, 49]) (9 &&& 0xFFFFFFFE) = some 2 ∧
    load (heapOfList 8 [2, 2, 41, 0, 2, 4, 49, 0, 1, 41, 1, 49]) (25 &&& 0xFFFFFFFE) = some 2 ∧
    load (heapOfList 8 [2, 2, 41, 0, 2, 4, 49, 0, 1, 41, 1, 49]) ((9 &&& 0xFFFFFFFE) + 4 * 2)
      = some 41 ∧
    load (heapOfList 8 [2, 2, 41, 0, 2, 4, 49, 0, 1, 41, 1, 49]) ((25 &&& 0xFFFFFFFE) + 4 * 2)
      = some 49 :=
  ⟨equal_short_circuit (heapOfList 8 [2, 2, 41, 0, 2, 4, 49, 0, 1, 41, 1, 49]) 9 25 2 1
      (by decide) (by decide) (by decide) (by decide) (by decide) (by decide) (by decide)
      (by decide) (fun i h1 h2 => absurd h2 (by omega))
      ⟨2, 4, by decide, by decide, 0, by decide⟩,
    by decide, equal_cyclic_pair_diverges, by decide, by decide, by decide, by decide⟩

/-! ## Transitivity -/

theorem equalBody_trans (rec : Nat → Nat → Outcome Nat) (h : Heap)
    (hrec : ∀ x y z, rec x y = .ok TRUE → rec y z = .ok TRUE → rec x z = .ok TRUE)
    (hs : ∀ x y r, rec x y = .ok r → r = TRUE ∨ r = FALSE) (a b c : Nat)
    (h1 : equalBody rec h a b = .ok TRUE) (h2 : equalBody rec h b c = .ok TRUE) :
    equalBody rec h a c = .ok TRUE := by
  by_cases hac : a = c
  · subst hac; exact equalBody_same rec h a
  · by_cases hab : a = b
    · subst hab; exact h2
    · by_cases hbc : b = c
      · subst hbc; exact h1
      · rcases equalBody_true_elim rec h a b h1 with e | ⟨ta, tb, n, l1, l2, e1⟩
        · exact absurd e hab
        · rcases equalBody_true_elim rec h b c h2 with e | ⟨_, tc, n2, l3, l4, e2⟩
          · exact absurd e hbc
          · have hn : n2 = n := Option.some.inj (l3.symm.trans l2)
            rw [hn] at l4 e2
            have hm : toInt32 n ≠ INT_MAX := by
              intro hm
              rw [equalBody_tuples rec h a b n n hab ta tb l1 l2, if_neg (not_not.2 rfl),
                if_pos hm] at h1
              cases h1
            rw [equalBody_tuples rec h a c n n hac ta tc l1 l4, if_neg (not_not.2 rfl),
              if_neg hm]
            apply equalLoop_true_intro
            intro j hj
            obtain ⟨x, y, r, hx, hy, hr, hne⟩ := e1 j hj
            obtain ⟨y2, z, r2, hy2, hz, hr2, hne2⟩ := e2 j hj
            have hyy : y2 = y := Option.some.inj (hy2.symm.trans hy)
            rw [hyy] at hr2
            have hrT : r = TRUE := (hs x y r hr).resolve_right hne
            have hrT2 : r2 = TRUE := (hs y z r2 hr2).resolve_right hne2
            rw [hrT] at hr
            rw [hrT2] at hr2
            exact ⟨x, z, hx, hz, hrec x y z hr hr2⟩

/-- With one and the same fuel, `TRUE` for `(a, b)` and for `(b, c)` gives `TRUE`
for `(a, c)`; no assumption on the heap is needed. -/
theorem equal_trans_fuel (h : Heap) : ∀ (fuel a b c : Nat),
    equal h fuel a b = .ok TRUE → equal h fuel b c = .ok TRUE → equal h fuel a c = .ok TRUE := by
  intro fuel
  induction fuel with
  | zero =>
    intro a b c h1 h2
    exact equalBody_trans (fun _ _ => Outcome.outOfFuel) h
      (fun x y z e _ => by cases e) (fun x y r e => by cases e) a b c h1 h2
  | succ f ih =>
    intro a b c h1 h2
    exact equalBody_trans (equal h f) h (fun x y z => ih x y z)
      (fun x y r => equal_sentinel h f x y r) a b c h1 h2

theorem equalReturns_trans (h : Heap) (a b c : Nat) (h1 : EqualReturns h a b TRUE)
    (h2 : EqualReturns h b c TRUE) : EqualReturns h a c TRUE := by
  obtain ⟨f1, e1⟩ := h1
  obtain ⟨f2, e2⟩ := h2
  exact ⟨max f1 f2, equal_trans_fuel h _ a b c
    (equal_fuel_mono h f1 _ a b TRUE (Nat.le_max_left f1 f2) e1)
    (equal_fuel_mono h f2 _ b c TRUE (Nat.le_max_right f1 f2) e2)⟩

/-- Claim C16. Transitivity: if `equal(a, b)` and `equal(b, c)` return `TRUE`
then `equal(a, c)` returns `TRUE`, with the same fuel; this holds on every
heap, acyclic or not.  With reflexivity and commutativity, returning `TRUE` is
an equivalence relation on words. -/
theorem equal_transitive (h : Heap) (a b c : Nat) :
    (EqualReturns h a b TRUE → EqualReturns h b c TRUE → EqualReturns h a c TRUE) ∧
    (∀ fuel, equal h fuel a b = .ok TRUE → equal h fuel b c = .ok TRUE →
      equal h fuel a c = .ok TRUE) ∧
    Equivalence (fun x y => EqualReturns h x y TRUE) := by
  refine ⟨equalReturns_trans h a b c, fun fuel => equal_trans_fuel h fuel a b c, ?_⟩
  constructor
  · intro x
    exact ⟨0, equal_reflexive_aux h 0 x⟩
  · intro x y hxy
    obtain ⟨f, hf⟩ := hxy
    exact ⟨f, by rw [equal_comm h f y x]; exact hf⟩
  · intro x y z hxy hyz
    exact equalReturns_trans h x y z hxy hyz

/-- Witness for C16: three separately allocated records `[2, 2, 4]`. -/
theorem equal_transitive_witness :
    equal (heapOfList 8 [2, 2, 4, 0, 2, 2, 4, 0, 2, 2, 4]) 1 9 25 = .ok TRUE ∧
    equal (heapOfList 8 [2, 2, 4, 0, 2, 2, 4, 0, 2, 2, 4]) 1 25 41 = .ok TRUE ∧
    equal (heapOfList 8 [2, 2, 4, 0, 2, 2, 4, 0, 2, 2, 4]) 1 9 41 = .ok TRUE ∧
    EqualReturns (heapOfList 8 [2, 2, 4, 0, 2, 2, 4, 0, 2, 2, 4]) 9 41 TRUE :=
  ⟨by decide, by decide,
    (equal_transitive (heapOfList 8 [2, 2, 4, 0, 2, 2, 4, 0, 2, 2, 4]) 9 25 41).2.1 1
      (by decide) (by decide),
    (equal_transitive (heapOfList 8 [2, 2, 4, 0, 2, 2, 4, 0, 2, 2, 4]) 9 25 41).1
      ⟨1, by decide⟩ ⟨1, by decide⟩⟩

/-! ## Equal values print the same text -/

theorem print_simple_tuple (h : Heap) (d v : Nat) (ht : v &&& 0x00000007 = 1) :
    print_simple h (d + 1) v = printTuple (print_simple h d) h v := by
  rw [print_simple_eq_printVariant, (classify_tupleRef_iff v).2 ht]
  rfl

/-- Two lists of the same length that agree wherever both have an entry are
the same list. -/
theorem list_eq_of_entries {α : Type} (l1 l2 : List α) (hlen : l1.length = l2.length)
    (hall : ∀ (j : Nat) (x y : α), l1[j]? = some x → l2[j]? = some y → x = y) : l1 = l2 := by
  apply List.ext_getElem?
  intro j
  by_cases hj : j < l1.length
  · have h1 := List.getElem?_eq_getElem hj
    have h2 := List.getElem?_eq_getElem (hlen ▸ hj : j < l2.length)
    rw [h1, h2, hall j _ _ h1 h2]
  · rw [List.getElem?_eq_none (by omega), List.getElem?_eq_none (by omega)]

/-- Claim C17. Equal values print identically: on a heap acyclic within depth
`d` below both words, if `equal(a, b)` returns `TRUE` then `print_simple(a)` and
`print_simple(b)` both print, and they print the same text. -/
theorem equal_implies_same_print (h : Heap) (d a b : Nat)
    (ha : acyclicWithin h d a = true) (hb : acyclicWithin h d b = true)
    (heq : EqualReturns h a b TRUE) :
    ∃ s, print_simple h d a = .ok s ∧ print_simple h d b = .ok s := by
  induction d generalizing a b with
  | zero =>
    obtain ⟨f, hf⟩ := heq
    rcases structurallyEqual_of_equal_true h f a b hf with e | ⟨ta, _⟩
    · subst e
      obtain ⟨s, hs⟩ := print_simple_terminates h 0 a ha
      exact ⟨s, hs, hs⟩
    · exact absurd ta (acyclicWithin_zero_elim ha)
  | succ d ih =>
    obtain ⟨f, hf⟩ := heq
    rcases structurallyEqual_of_equal_true h f a b hf with e | ⟨ta, tb, n, l1, l2, hel⟩
    · subst e
      obtain ⟨s, hs⟩ := print_simple_terminates h (d + 1) a ha
      exact ⟨s, hs, hs⟩
    · obtain ⟨c1, hc1, e1⟩ := acyclicWithin_succ_elim ha ta
      obtain ⟨c2, hc2, e2⟩ := acyclicWithin_succ_elim hb tb
      have hn1 : c1 = n := Option.some.inj (hc1.symm.trans l1)
      have hn2 : c2 = n := Option.some.inj (hc2.symm.trans l2)
      rw [hn1] at e1
      rw [hn2] at e2
      obtain ⟨textsA, lenA, elA, prA⟩ := printTuple_ok (print_simple h d) h a n l1
        (fun j hj => by
          obtain ⟨e, hle, hae⟩ := e1 j hj
          obtain ⟨s, hs⟩ := print_simple_terminates h d e hae
          exact ⟨e, s, by rw [Nat.add_comm 1 j]; exact hle, hs⟩)
      obtain ⟨textsB, lenB, elB, prB⟩ := printTuple_ok (print_simple h d) h b n l2
        (fun j hj => by
          obtain ⟨e, hle, hae⟩ := e2 j hj
          obtain ⟨s, hs⟩ := print_simple_terminates h d e hae
          exact ⟨e, s, by rw [Nat.add_comm 1 j]; exact hle, hs⟩)
      have hsame : textsA = textsB := by
        apply list_eq_of_entries textsA textsB (lenA.trans lenB.symm)
        intro j sa sb hja hjb
        have hj : j < (toInt32 n).toNat := by
          rw [← lenA]
          exact (List.getElem?_eq_some.1 hja).1
        obtain ⟨ea, hea, hsa⟩ := elA j sa hja
        obtain ⟨eb, heb, hsb⟩ := elB j sb hjb
        obtain ⟨x, y, hx, hy, hxy⟩ := hel (1 + j) (by omega) (by omega)
        have hxa : x = ea := Option.some.inj (hx.symm.trans hea)
        have hyb : y = eb := Option.some.inj (hy.symm.trans heb)
        rw [hxa, hyb] at hxy
        obtain ⟨e3, hle3, hae3⟩ := e1 j hj
        obtain ⟨e4, hle4, hae4⟩ := e2 j hj
        rw [Nat.add_comm j 1] at hle3 hle4
        have h3 : e3 = ea := Option.some.inj (hle3.symm.trans hea)
        have h4 : e4 = eb := Option.some.inj (hle4.symm.trans heb)
        rw [h3] at hae3
        rw [h4] at hae4
        obtain ⟨s, hs1, hs2⟩ := ih ea eb hae3 hae4 hxy
        have k1 : sa = s := Outcome.ok.inj (hsa.symm.trans hs1)
        have k2 : sb = s := Outcome.ok.inj (hsb.symm.trans hs2)
        rw [k1, k2]
      refine ⟨"(" ++ ",".intercalate textsA ++ ")", ?_, ?_⟩
      · rw [print_simple_tuple h d a ta]
        exact prA
      · rw [print_simple_tuple h d b tb, hsame]
        exact prB

/-- Witness for C17: the two nested tuples `((1), 2)` built from separate
records print the same text. -/
theorem equal_implies_same_print_witness :
    acyclicWithin (heapOfList 8 [1, 2, 2, 9, 4, 0, 1, 2, 2, 33, 4]) 2 17 = true ∧
    acyclicWithin (heapOfList 8 [1, 2, 2, 9, 4, 0, 1, 2, 2, 33, 4]) 2 41 = true ∧
    equal (heapOfList 8 [1, 2, 2, 9, 4, 0, 1, 2, 2, 33, 4]) 2 17 41 = .ok TRUE ∧
    (∃ s, print_simple (heapOfList 8 [1, 2, 2, 9, 4, 0, 1, 2, 2, 33, 4]) 2 17 = .ok s ∧
      print_simple (heapOfList 8 [1, 2, 2, 9, 4, 0, 1, 2, 2, 33, 4]) 2 41 = .ok s) ∧
    print_simple (heapOfList 8 [1, 2, 2, 9, 4, 0, 1, 2, 2, 33, 4]) 2 17 = .ok "((1),2)" ∧
    print_simple (heapOfList 8 [1, 2, 2, 9, 4, 0, 1, 2, 2, 33, 4]) 2 41 = .ok "((1),2)" :=
  ⟨by decide, by decide, by decide,
    equal_implies_same_print (heapOfList 8 [1, 2, 2, 9, 4, 0, 1, 2, 2, 33, 4]) 2 17 41
      (by decide) (by decide) ⟨2, by decide⟩,
    by decide, by decide⟩

/-! ## More fuel never changes what `print_simple` prints -/

theorem printLoop_mono (rec rec2 : Nat → Outcome String) (h : Heap) (vp : Nat) (count : Int)
    (hrec : ∀ x s, rec x = .ok s → rec2 x = .ok s) :
    ∀ (n i : Nat) (s : String), printLoop rec h vp count n i = .ok s →
      printLoop rec2 h vp count n i = .ok s := by
  intro n
  induction n with
  | zero => intro i s hs; exact hs
  | succ n ih =>
    intro i s hs
    simp only [printLoop] at hs ⊢
    split at hs
    next e he =>
      split at hs
      next s1 hs1 =>
        rw [hrec e s1 hs1]
        split at hs
        next rest hrest =>
          rw [ih (i + 1) rest hrest]
          exact hs
        · cases hs
        · cases hs
      · cases hs
      · cases hs
    · cases hs

theorem printTuple_mono (rec rec2 : Nat → Outcome String) (h : Heap)
    (hrec : ∀ x s, rec x = .ok s → rec2 x = .ok s) (v : Nat) (s : String)
    (hs : printTuple rec h v = .ok s) : printTuple rec2 h v = .ok s := by
  unfold printTuple at hs ⊢
  simp only at hs ⊢
  split at hs
  next c hc =>
    split at hs
    · cases hs
    next hm =>
      rw [if_neg hm]
      split at hs
      next elts he =>
        rw [printLoop_mono rec rec2 h _ _ hrec _ _ elts he]
        exact hs
      · cases hs
      · cases hs
  · cases hs

theorem printVariant_mono (rec rec2 : Nat → Outcome String) (h : Heap)
    (hrec : ∀ x s, rec x = .ok s → rec2 x = .ok s) (v : Nat) (k : Variant) (s : String)
    (hs : printVariant rec h v k = .ok s) : printVariant rec2 h v k = .ok s := by
  cases k with
  | tupleRef => exact printTuple_mono rec rec2 h hrec v s hs
  | integer => exact hs
  | boolTrue => exact hs
  | boolFalse => exact hs
  | unrecognized => exact hs

theorem print_simple_succ (h : Heap) : ∀ (fuel v : Nat) (s : String),
    print_simple h fuel v = .ok s → print_simple h (fuel + 1) v = .ok s := by
  intro fuel
  induction fuel with
  | zero =>
    intro v s hs
    rw [print_simple_eq_printVariant] at hs ⊢
    exact printVariant_mono _ _ h (fun x t e => by cases e) v _ s hs
  | succ f ih =>
    intro v s hs
    rw [print_simple_eq_printVariant] at hs ⊢
    exact printVariant_mono _ _ h (fun x t e => ih x t e) v _ s hs

theorem print_simple_fuel_mono (h : Heap) (fuel fuel2 v : Nat) (s : String) (hle : fuel ≤ fuel2)
    (hs : print_simple h fuel v = .ok s) : print_simple h fuel2 v = .ok s := by
  induction hle with
  | refl => exact hs
  | step _ ih => exact print_simple_succ h _ v s ih

/-- The text `print_simple` prints for a word does not depend on the fuel. -/
theorem printReturns_unique (h : Heap) (v : Nat) (s t : String) (hs : PrintReturns h v s)
    (ht : PrintReturns h v t) : s = t := by
  obtain ⟨f1, e1⟩ := hs
  obtain ⟨f2, e2⟩ := ht
  have k1 := print_simple_fuel_mono h f1 (max f1 f2) v s (Nat.le_max_left f1 f2) e1
  have k2 := print_simple_fuel_mono h f2 (max f1 f2) v t (Nat.le_max_right f1 f2) e2
  exact Outcome.ok.inj (k1.symm.trans k2)

/-! ## Well-formed values -/

theorem wellFormedWithin_lt {h : Heap} {d w : Nat} (hw : wellFormedWithin h d w = true) :
    w < 2 ^ 32 := by
  cases d with
  | zero =>
    simp only [wellFormedWithin, Bool.and_eq_true, decide_eq_true_eq] at hw
    exact hw.1
  | succ d =>
    simp only [wellFormedWithin, Bool.and_eq_true, decide_eq_true_eq] at hw
    exact hw.1

theorem wellFormedWithin_zero_elim {h : Heap} {w : Nat} (hw : wellFormedWithin h 0 w = true) :
    w &&& 0x00000007 ≠ 1 := by
  simp only [wellFormedWithin, Bool.and_eq_true, decide_eq_true_eq] at hw
  exact hw.2

theorem wellFormedWithin_succ_elim {h : Heap} {d w : Nat}
    (hw : wellFormedWithin h (d + 1) w = true) (ht : w &&& 0x00000007 = 1) :
    ∃ c, load h (w &&& 0xFFFFFFFE) = some c ∧ c < 2 ^ 31 ∧
      ∀ i, i < (toInt32 c).toNat →
        ∃ e, load h ((w &&& 0xFFFFFFFE) + 4 * (i + 1)) = some e ∧
          wellFormedWithin h d e = true := by
  simp only [wellFormedWithin, Bool.and_eq_true, decide_eq_true_eq, ht, if_true] at hw
  obtain ⟨_, hw⟩ := hw
  split at hw
  next c hc =>
    simp only [Bool.and_eq_true, decide_eq_true_eq] at hw
    refine ⟨c, hc, hw.1, ?_⟩
    intro i hi
    have hall := hw.2
    rw [List.all_eq_true] at hall
    have hi2 := hall i (List.mem_range.2 hi)
    split at hi2
    next e he => exact ⟨e, he, hi2⟩
    · cases hi2
  · cases hw

/-- A well-formed value is in particular acyclic within the same depth. -/
theorem acyclicWithin_of_wellFormedWithin (h : Heap) : ∀ (d w : Nat),
    wellFormedWithin h d w = true → acyclicWithin h d w = true := by
  intro d
  induction d with
  | zero =>
    intro w hw
    exact acyclicWithin_of_not_tuple h 0 w (wellFormedWithin_zero_elim hw)
  | succ d ih =>
    intro w hw
    by_cases ht : w &&& 0x00000007 = 1
    · obtain ⟨c, hc, _, hel⟩ := wellFormedWithin_succ_elim hw ht
      apply acyclicWithin_succ_intro h d w c hc
      intro i hi
      obtain ⟨e, he, hwe⟩ := hel i hi
      exact ⟨e, he, ih e hwe⟩
    · exact acyclicWithin_of_not_tuple h (d + 1) w ht

/-! ## The printed text determines the value -/

theorem variantOfHead_digit (c : Char) (hc : c = '-' ∨ c.isDigit = true) :
    variantOfHead c = .integer := by
  rcases hc with hc | hc
  · subst hc; decide
  · unfold variantOfHead
    split_ifs with h1 h2 h3 h4
    · subst h1; exact absurd hc (by decide)
    · subst h2; exact absurd hc (by decide)
    · subst h3; exact absurd hc (by decide)
    · subst h4; exact absurd hc (by decide)
    · rfl

theorem cons_of_head_some {α : Type} {l : List α} {c : α} (hl : l.head? = some c) :
    ∃ rest, l = c :: rest := by
  cases l with
  | nil => cases hl
  | cons x rest =>
    simp only [List.head?_cons, Option.some.injEq] at hl
    exact ⟨rest, by rw [hl]⟩

/-- The first character of a printed text tells the variant of the word. -/
theorem print_simple_head (h : Heap) (fuel w : Nat) (s : String)
    (hs : print_simple h fuel w = .ok s) :
    ∃ c rest, s.data = c :: rest ∧ variantOfHead c = classify w := by
  rw [print_simple_eq_printVariant] at hs
  rcases printVariant_head _ h w s hs with
    ⟨hcl, c, hc, hd⟩ | ⟨hcl, e⟩ | ⟨hcl, e⟩ | ⟨hcl, hp⟩ | ⟨hcl, hu⟩
  · obtain ⟨rest, hr⟩ := cons_of_head_some hc
    exact ⟨c, rest, hr, by rw [hcl]; exact variantOfHead_digit c hd⟩
  · subst e
    exact ⟨'t', ['r', 'u', 'e'], rfl, by rw [hcl]; decide⟩
  · subst e
    exact ⟨'f', ['a', 'l', 's', 'e'], rfl, by rw [hcl]; decide⟩
  · obtain ⟨rest, hr⟩ := cons_of_head_some hp
    exact ⟨'(', rest, hr, by rw [hcl]; decide⟩
  · obtain ⟨rest, hr⟩ := cons_of_head_some hu
    exact ⟨'U', rest, hr, by rw [hcl]; decide⟩

/-- A printed text never starts with a comma or a closing parenthesis, so it
cannot be taken for the end of an element. -/
theorem print_simple_head_not_delim (h : Heap) (fuel w : Nat) (s : String)
    (hs : print_simple h fuel w = .ok s) :
    ∃ c rest, s.data = c :: rest ∧ c ≠ ',' ∧ c ≠ ')' := by
  rw [print_simple_eq_printVariant] at hs
  rcases printVariant_head _ h w s hs with
    ⟨_, c, hc, hd⟩ | ⟨_, e⟩ | ⟨_, e⟩ | ⟨_, hp⟩ | ⟨_, hu⟩
  · obtain ⟨rest, hr⟩ := cons_of_head_some hc
    refine ⟨c, rest, hr, ?_, ?_⟩
    · intro e
      subst e
      rcases hd with hd | hd
      · exact absurd hd (by decide)
      · exact absurd hd (by decide)
    · intro e
      subst e
      rcases hd with hd | hd
      · exact absurd hd (by decide)
      · exact absurd hd (by decide)
  · subst e
    exact ⟨'t', ['r', 'u', 'e'], rfl, by decide, by decide⟩
  · subst e
    exact ⟨'f', ['a', 'l', 's', 'e'], rfl, by decide, by decide⟩
  · obtain ⟨rest, hr⟩ := cons_of_head_some hp
    exact ⟨'(', rest, hr, by decide, by decide⟩
  · obtain ⟨rest, hr⟩ := cons_of_head_some hu
    exact ⟨'U', rest, hr, by decide, by decide⟩

/-- Two words whose printed texts, each followed by anything, agree have the
same variant. -/
theorem classify_eq_of_text (h : Heap) (f1 f2 a b : Nat) (s t : String) (r1 r2 : List Char)
    (hs : print_simple h f1 a = .ok s) (ht : print_simple h f2 b = .ok t)
    (he : s.data ++ r1 = t.data ++ r2) : classify a = classify b := by
  obtain ⟨c1, rest1, hd1, hv1⟩ := print_simple_head h f1 a s hs
  obtain ⟨c2, rest2, hd2, hv2⟩ := print_simple_head h f2 b t ht
  rw [hd1, hd2, List.cons_append, List.cons_append] at he
  have hc : c1 = c2 := (List.cons.inj he).1
  rw [← hv1, ← hv2, hc]

/-- Two runs of characters that all satisfy `P`, each followed by nothing or by
a character that does not satisfy `P`, agree as soon as the whole texts do. -/
theorem span_unique (P : Char → Prop) : ∀ (xs ys r1 r2 : List Char),
    (∀ c ∈ xs, P c) → (∀ c ∈ ys, P c) →
    (∀ c, r1.head? = some c → ¬ P c) → (∀ c, r2.head? = some c → ¬ P c) →
    xs ++ r1 = ys ++ r2 → xs = ys ∧ r1 = r2 := by
  intro xs
  induction xs with
  | nil =>
    intro ys r1 r2 _ hy h1 _ he
    cases ys with
    | nil => exact ⟨rfl, he⟩
    | cons y ys =>
      simp only [List.nil_append, List.cons_append] at he
      exact absurd (hy y (List.mem_cons_self y ys)) (h1 y (by rw [he]; rfl))
  | cons x xs ih =>
    intro ys r1 r2 hx hy h1 h2 he
    cases ys with
    | nil =>
      simp only [List.nil_append, List.cons_append] at he
      exact absurd (hx x (List.mem_cons_self x xs)) (h2 x (by rw [← he]; rfl))
    | cons y ys =>
      simp only [List.cons_append, List.cons.injEq] at he
      obtain ⟨hxy, htl⟩ := he
      obtain ⟨e1, e2⟩ := ih ys r1 r2 (fun c hc => hx c (List.mem_cons_of_mem x hc))
        (fun c hc => hy c (List.mem_cons_of_mem y hc)) h1 h2 htl
      exact ⟨by rw [hxy, e1], e2⟩

theorem delimited_head_not_digit (r : List Char) (hr : Delimited r) :
    ∀ c, r.head? = some c → ¬ (c = '-' ∨ c.isDigit = true) := by
  intro c hc hP
  rcases hr with h0 | h1 | h1
  · rw [h0] at hc; cases hc
  · rw [h1] at hc
    have e : c = ',' := (Option.some.inj hc).symm
    subst e
    rcases hP with hP | hP
    · exact absurd hP (by decide)
    · exact absurd hP (by decide)
  · rw [h1] at hc
    have e : c = ')' := (Option.some.inj hc).symm
    subst e
    rcases hP with hP | hP
    · exact absurd hP (by decide)
    · exact absurd hP (by decide)

theorem shift_injective (a b : Nat) (ha : a < 2 ^ 32) (hb : b < 2 ^ 32) (ea : a % 2 = 0)
    (eb : b % 2 = 0) (he : toInt32 a >>> (1 : Nat) = toInt32 b >>> (1 : Nat)) : a = b := by
  rw [Int.shiftRight_eq_div_pow, Int.shiftRight_eq_div_pow] at he
  unfold toInt32 at he
  have ha2 : a % 2 ^ 32 = a := Nat.mod_eq_of_lt ha
  have hb2 : b % 2 ^ 32 = b := Nat.mod_eq_of_lt hb
  rw [ha2, hb2] at he
  split_ifs at he <;> omega

theorem unknown_text (h : Heap) (fuel w : Nat) (hw : w < 2 ^ 32)
    (hcl : classify w = .unrecognized) :
    ∃ ds : List Char, ds.length = 8 ∧ hexValue ds = w ∧
      print_simple h fuel w = .ok ("Unknown value: 0x" ++ String.mk ds) := by
  have h0 : w ≠ 0 := by
    have := ((classify_unrecognized_iff w).1 hcl).1
    omega
  obtain ⟨hlen, _, hval⟩ := hex8_spec w hw
  refine ⟨_, hlen, hval, ?_⟩
  rw [print_simple_unrecognized h fuel w hcl]
  unfold fmt_hash_010x
  rw [if_neg h0, ← String.append_assoc]
  rfl

/-- For words that are not tuple references, the printed text, followed by
nothing or a delimiter, determines the word. -/
theorem text_determines_word (h : Heap) (f1 f2 a b : Nat) (s t : String) (r1 r2 : List Char)
    (ha : a < 2 ^ 32) (hb : b < 2 ^ 32) (hnt : classify a ≠ .tupleRef)
    (hs : print_simple h f1 a = .ok s) (ht : print_simple h f2 b = .ok t)
    (d1 : Delimited r1) (d2 : Delimited r2) (he : s.data ++ r1 = t.data ++ r2) :
    s = t ∧ r1 = r2 ∧ a = b := by
  have hcl := classify_eq_of_text h f1 f2 a b s t r1 r2 hs ht he
  cases hca : classify a with
  | integer =>
    have hcb : classify b = .integer := by rw [← hcl, hca]
    have ea := (classify_integer_iff a).1 hca
    have eb := (classify_integer_iff b).1 hcb
    rw [print_simple_integer h f1 a ea] at hs
    rw [print_simple_integer h f2 b eb] at ht
    have hs2 := (Outcome.ok.inj hs).symm
    have ht2 := (Outcome.ok.inj ht).symm
    rw [hs2, ht2] at he
    obtain ⟨e1, e2⟩ := span_unique (fun c => c = '-' ∨ c.isDigit = true) _ _ r1 r2
      (fmt_d_chars _) (fmt_d_chars _) (delimited_head_not_digit r1 d1)
      (delimited_head_not_digit r2 d2) he
    have e3 := fmt_d_injective _ _ (String.ext e1)
    have hab := shift_injective a b ha hb ea eb e3
    exact ⟨by rw [hs2, ht2, String.ext e1], e2, hab⟩
  | boolTrue =>
    have hcb : classify b = .boolTrue := by rw [← hcl, hca]
    have ea := (classify_boolTrue_iff a).1 hca
    have eb := (classify_boolTrue_iff b).1 hcb
    have hab : a = b := by rw [ea, eb]
    subst hab
    have hst : s = t := printReturns_unique h a s t ⟨f1, hs⟩ ⟨f2, ht⟩
    subst hst
    exact ⟨rfl, List.append_cancel_left he, rfl⟩
  | boolFalse =>
    have hcb : classify b = .boolFalse := by rw [← hcl, hca]
    have ea := (classify_boolFalse_iff a).1 hca
    have eb := (classify_boolFalse_iff b).1 hcb
    have hab : a = b := by rw [ea, eb]
    subst hab
    have hst : s = t := printReturns_unique h a s t ⟨f1, hs⟩ ⟨f2, ht⟩
    subst hst
    exact ⟨rfl, List.append_cancel_left he, rfl⟩
  | tupleRef => exact absurd hca hnt
  | unrecognized =>
    have hcb : classify b = .unrecognized := by rw [← hcl, hca]
    obtain ⟨ds1, l1, v1, p1⟩ := unknown_text h f1 a ha hca
    obtain ⟨ds2, l2, v2, p2⟩ := unknown_text h f2 b hb hcb
    have hs2 := Outcome.ok.inj (hs.symm.trans p1)
    have ht2 := Outcome.ok.inj (ht.symm.trans p2)
    rw [hs2, ht2, String.data_append, String.data_append, List.append_assoc,
      List.append_assoc] at he
    have he2 := List.append_cancel_left he
    obtain ⟨e1, e2⟩ := List.append_inj he2 (by
      show ds1.length = ds2.length
      rw [l1, l2])
    have e3 : ds1 = ds2 := e1
    have hab : a = b := by rw [← v1, ← v2, e3]
    exact ⟨by rw [hs2, ht2, e3], e2, hab⟩

theorem intercalate_data_cons (a : String) (T : List String) :
    ∃ X : List Char, (",".intercalate (a :: T)).data = a.data ++ X ∧
      (T = [] → X = []) ∧
      (∀ c T2, T = c :: T2 → X = ',' :: (",".intercalate T).data) := by
  cases T with
  | nil =>
    refine ⟨[], ?_, fun _ => rfl, fun c T2 e => by cases e⟩
    simp [String.intercalate, String.intercalate.go]
  | cons b T =>
    refine ⟨',' :: (",".intercalate (b :: T)).data, ?_, (fun e => by cases e), fun c T2 _ => rfl⟩
    rw [intercalate_cons_cons, String.append_assoc, String.data_append, String.data_append]
    rfl

theorem delimited_close (r : List Char) : Delimited (')' :: r) :=
  Or.inr (Or.inr rfl)

theorem delimited_comma (r : List Char) : Delimited (',' :: r) :=
  Or.inr (Or.inl rfl)

theorem toInt32_of_lt (c : Nat) (hc : c < 2 ^ 31) : toInt32 c = (c : Int) := by
  unfold toInt32
  have h1 : c % 2 ^ 32 = c := Nat.mod_eq_of_lt (by omega)
  rw [h1, if_pos hc]

/-- The element texts of two printed tuples agree, one by one, as soon as the
joined texts do; `hM` is the same fact for the elements themselves. -/
theorem texts_unique (h : Heap) (d pA pB : Nat)
    (hM : ∀ (a b : Nat) (s t : String) (r1 r2 : List Char),
      wellFormedWithin h d a = true → wellFormedWithin h d b = true →
      print_simple h d a = .ok s → print_simple h d b = .ok t →
      Delimited r1 → Delimited r2 → s.data ++ r1 = t.data ++ r2 →
      s = t ∧ r1 = r2 ∧ equal h d a b = .ok TRUE) :
    ∀ (TA TB : List String) (k : Nat) (r1 r2 : List Char),
      (∀ (j : Nat) (s : String), TA[j]? = some s →
        ∃ e, load h (pA + 4 * (k + j)) = some e ∧ wellFormedWithin h d e = true ∧
          print_simple h d e = .ok s) →
      (∀ (j : Nat) (s : String), TB[j]? = some s →
        ∃ e, load h (pB + 4 * (k + j)) = some e ∧ wellFormedWithin h d e = true ∧
          print_simple h d e = .ok s) →
      (",".intercalate TA).data ++ ')' :: r1 = (",".intercalate TB).data ++ ')' :: r2 →
      TA = TB ∧ r1 = r2 ∧
        ∀ j, j < TA.length → ∃ x y, load h (pA + 4 * (k + j)) = some x ∧
          load h (pB + 4 * (k + j)) = some y ∧ equal h d x y = .ok TRUE := by
  intro TA
  induction TA with
  | nil =>
    intro TB k r1 r2 _ hB he
    cases TB with
    | nil =>
      have he2 : ')' :: r1 = ')' :: r2 := he
      exact ⟨rfl, (List.cons.inj he2).2, fun j hj => absurd hj (Nat.not_lt_zero j)⟩
    | cons b TB =>
      obtain ⟨e, _, _, hp⟩ := hB 0 b (by simp)
      obtain ⟨c, rest, hd, _, hc⟩ := print_simple_head_not_delim h d e b hp
      obtain ⟨X, hX, _, _⟩ := intercalate_data_cons b TB
      rw [hX, hd] at he
      have he2 : ')' :: r1 = c :: (rest ++ X ++ ')' :: r2) := by
        simpa [String.intercalate] using he
      exact absurd (List.cons.inj he2).1.symm hc
  | cons a TA ih =>
    intro TB k r1 r2 hA hB he
    obtain ⟨eA, lA, wA, pA2⟩ := hA 0 a (by simp)
    obtain ⟨XA, hXA, nilA, consA⟩ := intercalate_data_cons a TA
    cases TB with
    | nil =>
      obtain ⟨c, rest, hd, _, hc⟩ := print_simple_head_not_delim h d eA a pA2
      rw [hXA, hd] at he
      have he2 : c :: (rest ++ XA ++ ')' :: r1) = ')' :: r2 := by
        simpa [String.intercalate] using he
      exact absurd (List.cons.inj he2).1 hc
    | cons b TB =>
      obtain ⟨eB, lB, wB, pB2⟩ := hB 0 b (by simp)
      obtain ⟨XB, hXB, nilB, consB⟩ := intercalate_data_cons b TB
      rw [hXA, hXB, List.append_assoc, List.append_assoc] at he
      have dA : Delimited (XA ++ ')' :: r1) := by
        cases TA with
        | nil => rw [nilA rfl]; exact delimited_close r1
        | cons c T2 => rw [consA c T2 rfl]; exact delimited_comma _
      have dB : Delimited (XB ++ ')' :: r2) := by
        cases TB with
        | nil => rw [nilB rfl]; exact delimited_close r2
        | cons c T2 => rw [consB c T2 rfl]; exact delimited_comma _
      obtain ⟨hab, hrest, heq⟩ := hM eA eB a b _ _ wA wB pA2 pB2 dA dB he
      have hshiftA : ∀ (j : Nat) (s : String), TA[j]? = some s →
          ∃ e, load h (pA + 4 * (k + 1 + j)) = some e ∧ wellFormedWithin h d e = true ∧
            print_simple h d e = .ok s := by
        intro j s hj
        have := hA (j + 1) s (by simpa using hj)
        simpa [Nat.add_assoc, Nat.add_comm 1 j] using this
      have hshiftB : ∀ (j : Nat) (s : String), TB[j]? = some s →
          ∃ e, load h (pB + 4 * (k + 1 + j)) = some e ∧ wellFormedWithin h d e = true ∧
            print_simple h d e = .ok s := by
        intro j s hj
        have := hB (j + 1) s (by simpa using hj)
        simpa [Nat.add_assoc, Nat.add_comm 1 j] using this
      have hfirst : ∃ x y, load h (pA + 4 * (k + 0)) = some x ∧
          load h (pB + 4 * (k + 0)) = some y ∧ equal h d x y = .ok TRUE :=
        ⟨eA, eB, lA, lB, heq⟩
      cases TA with
      | nil =>
        cases TB with
        | nil =>
          rw [nilA rfl, nilB rfl] at hrest
          have hr : r1 = r2 := (List.cons.inj hrest).2
          refine ⟨by rw [hab], hr, ?_⟩
          intro j hj
          have hj0 : j = 0 := by
            simp only [List.length_singleton] at hj
            omega
          rw [hj0]
          exact hfirst
        | cons c T2 =>
          rw [nilA rfl, consB c T2 rfl] at hrest
          exact absurd (List.cons.inj hrest).1 (by decide)
      | cons c1 TA2 =>
        cases TB with
        | nil =>
          rw [consA c1 TA2 rfl, nilB rfl] at hrest
          exact absurd (List.cons.inj hrest).1 (by decide)
        | cons c2 TB2 =>
          rw [consA c1 TA2 rfl, consB c2 TB2 rfl] at hrest
          have hrest2 := (List.cons.inj hrest).2
          obtain ⟨hT, hr, hel⟩ := ih (c2 :: TB2) (k + 1) r1 r2 hshiftA hshiftB hrest2
          refine ⟨by rw [hab, hT], hr, ?_⟩
          intro j hj
          cases j with
          | zero => exact hfirst
          | succ j =>
            have := hel j (by simpa using hj)
            simpa [Nat.add_assoc, Nat.add_comm 1 j] using this

/-- The printed text of a well-formed value, followed by nothing or by a
delimiter, determines the value up to `equal`. -/
theorem text_determines_value (h : Heap) : ∀ (d a b : Nat) (s t : String) (r1 r2 : List Char),
    wellFormedWithin h d a = true → wellFormedWithin h d b = true →
    print_simple h d a = .ok s → print_simple h d b = .ok t →
    Delimited r1 → Delimited r2 → s.data ++ r1 = t.data ++ r2 →
    s = t ∧ r1 = r2 ∧ equal h d a b = .ok TRUE := by
  intro d
  induction d with
  | zero =>
    intro a b s t r1 r2 wa wb hs ht d1 d2 he
    have hnt : classify a ≠ .tupleRef :=
      fun c => wellFormedWithin_zero_elim wa ((classify_tupleRef_iff a).1 c)
    obtain ⟨e1, e2, e3⟩ := text_determines_word h 0 0 a b s t r1 r2
      (wellFormedWithin_lt wa) (wellFormedWithin_lt wb) hnt hs ht d1 d2 he
    subst e3
    exact ⟨e1, e2, equal_reflexive_aux h 0 a⟩
  | succ d ih =>
    intro a b s t r1 r2 wa wb hs ht d1 d2 he
    by_cases hca : classify a = .tupleRef
    · have hcb : classify b = .tupleRef := by
        rw [← classify_eq_of_text h _ _ a b s t r1 r2 hs ht he, hca]
      have ta := (classify_tupleRef_iff a).1 hca
      have tb := (classify_tupleRef_iff b).1 hcb
      obtain ⟨cA, lcA, bA, elA⟩ := wellFormedWithin_succ_elim wa ta
      obtain ⟨cB, lcB, bB, elB⟩ := wellFormedWithin_succ_elim wb tb
      obtain ⟨TA, lenA, tA, prA⟩ := printTuple_ok (print_simple h d) h a cA lcA
        (fun j hj => by
          obtain ⟨e, hle, hwe⟩ := elA j hj
          obtain ⟨u, hu⟩ := print_simple_terminates h d e
            (acyclicWithin_of_wellFormedWithin h d e hwe)
          exact ⟨e, u, by rw [Nat.add_comm 1 j]; exact hle, hu⟩)
      obtain ⟨TB, lenB, tB, prB⟩ := printTuple_ok (print_simple h d) h b cB lcB
        (fun j hj => by
          obtain ⟨e, hle, hwe⟩ := elB j hj
          obtain ⟨u, hu⟩ := print_simple_terminates h d e
            (acyclicWithin_of_wellFormedWithin h d e hwe)
          exact ⟨e, u, by rw [Nat.add_comm 1 j]; exact hle, hu⟩)
      have hA : ∀ (j : Nat) (u : String), TA[j]? = some u →
          ∃ e, load h ((a &&& 0xFFFFFFFE) + 4 * (1 + j)) = some e ∧
            wellFormedWithin h d e = true ∧ print_simple h d e = .ok u := by
        intro j u hj
        obtain ⟨e, hle, hu⟩ := tA j u hj
        have hjl : j < (toInt32 cA).toNat := by
          rw [← lenA]
          exact (List.getElem?_eq_some.1 hj).1
        obtain ⟨e2, hle2, hwe⟩ := elA j hjl
        rw [Nat.add_comm j 1] at hle2
        have hee : e2 = e := Option.some.inj (hle2.symm.trans hle)
        rw [hee] at hwe
        exact ⟨e, hle, hwe, hu⟩
      have hB : ∀ (j : Nat) (u : String), TB[j]? = some u →
          ∃ e, load h ((b &&& 0xFFFFFFFE) + 4 * (1 + j)) = some e ∧
            wellFormedWithin h d e = true ∧ print_simple h d e = .ok u := by
        intro j u hj
        obtain ⟨e, hle, hu⟩ := tB j u hj
        have hjl : j < (toInt32 cB).toNat := by
          rw [← lenB]
          exact (List.getElem?_eq_some.1 hj).1
        obtain ⟨e2, hle2, hwe⟩ := elB j hjl
        rw [Nat.add_comm j 1] at hle2
        have hee : e2 = e := Option.some.inj (hle2.symm.trans hle)
        rw [hee] at hwe
        exact ⟨e, hle, hwe, hu⟩
      rw [print_simple_tuple h d a ta, prA] at hs
      rw [print_simple_tuple h d b tb, prB] at ht
      have hs2 := (Outcome.ok.inj hs).symm
      have ht2 := (Outcome.ok.inj ht).symm
      have he2 : (",".intercalate TA).data ++ ')' :: r1 =
          (",".intercalate TB).data ++ ')' :: r2 := by
        rw [hs2, ht2] at he
        simp only [String.data_append, List.append_assoc] at he
        exact List.append_cancel_left he
      obtain ⟨hT, hr, hel⟩ := texts_unique h d _ _ ih TA TB 1 r1 r2 hA hB he2
      have hcount : cA = cB := by
        have hl : (toInt32 cA).toNat = (toInt32 cB).toNat := by
          rw [← lenA, ← lenB, hT]
        rw [toInt32_of_lt cA bA, toInt32_of_lt cB bB] at hl
        omega
      refine ⟨by rw [hs2, ht2, hT], hr, ?_⟩
      by_cases hab : a = b
      · subst hab
        exact equal_reflexive_aux h (d + 1) a
      · rw [← hcount] at lcB
        have hm : toInt32 cA ≠ INT_MAX :=
          count_ne_INT_MAX (fun i hi => (elA i hi).imp fun _ hx => hx.1)
        show equalBody (equal h d) h a b = .ok TRUE
        rw [equalBody_tuples _ h a b cA cA hab ta tb lcA lcB, if_neg (not_not.2 rfl),
          if_neg hm]
        apply equalLoop_true_intro
        intro j hj
        exact hel j (by rw [lenA]; exact hj)
    · obtain ⟨e1, e2, e3⟩ := text_determines_word h _ _ a b s t r1 r2
        (wellFormedWithin_lt wa) (wellFormedWithin_lt wb) hca hs ht d1 d2 he
      subst e3
      exact ⟨e1, e2, equal_reflexive_aux h (d + 1) a⟩

/-- Claim C18. Printing is injective up to structural equality: on a heap that
is acyclic within depth `d` below both words, with 32-bit words and
non-negative counts throughout, if `print_simple(a)` and `print_simple(b)`
print the same text then `equal(a, b)` returns `TRUE`. -/
theorem print_injective (h : Heap) (d a b : Nat) (s : String)
    (wa : wellFormedWithin h d a = true) (wb : wellFormedWithin h d b = true)
    (pa : PrintReturns h a s) (pb : PrintReturns h b s) :
    equal h d a b = .ok TRUE := by
  obtain ⟨sa, hsa⟩ := print_simple_terminates h d a (acyclicWithin_of_wellFormedWithin h d a wa)
  obtain ⟨sb, hsb⟩ := print_simple_terminates h d b (acyclicWithin_of_wellFormedWithin h d b wb)
  have e1 : sa = s := printReturns_unique h a sa s ⟨d, hsa⟩ pa
  have e2 : sb = s := printReturns_unique h b sb s ⟨d, hsb⟩ pb
  rw [e1] at hsa
  rw [e2] at hsb
  exact (text_determines_value h d a b s s [] [] wa wb hsa hsb (Or.inl rfl) (Or.inl rfl)
    rfl).2.2

/-- Witness for C18: the two nested tuples `((1), 2)` built from separate
records print the same text, and `equal` returns `TRUE` on them. -/
theorem print_injective_witness :
    wellFormedWithin (heapOfList 8 [1, 2, 2, 9, 4, 0, 1, 2, 2, 33, 4]) 2 17 = true ∧
    wellFormedWithin (heapOfList 8 [1, 2, 2, 9, 4, 0, 1, 2, 2, 33, 4]) 2 41 = true ∧
    print_simple (heapOfList 8 [1, 2, 2, 9, 4, 0, 1, 2, 2, 33, 4]) 2 17 = .ok "((1),2)" ∧
    print_simple (heapOfList 8 [1, 2, 2, 9, 4, 0, 1, 2, 2, 33, 4]) 2 41 = .ok "((1),2)" ∧
    (17 : Nat) ≠ 41 ∧
    equal (heapOfList 8 [1, 2, 2, 9, 4, 0, 1, 2, 2, 33, 4]) 2 17 41 = .ok TRUE :=
  ⟨by decide, by decide, by decide, by decide, by decide,
    print_injective (heapOfList 8 [1, 2, 2, 9, 4, 0, 1, 2, 2, 33, 4]) 2 17 41 "((1),2)"
      (by decide) (by decide) ⟨2, by decide⟩ ⟨2, by decide⟩⟩

end Design3
